import Mathlib

/-!
Verification development for the Premian range-order bot.

The definitions below are a shallow embedding of the TypeScript sources:
  - src/utils/rangeOrders.ts        (getValidRangeWidth)
  - src/config/constants.ts         (VALID_ORDER_WIDTHS)
  - src/actions/hydratePools.ts     (processStrikes, processDeposits,
                                     fetchOrDeployPool, depositPosition, ...)
  - src/actions/withdrawPools.ts    (withdrawSettleLiquidity, withdrawPosition)
  - src/utils/strikes.ts            (filterSurroundingStrikes)

JavaScript numbers are modelled by exact rationals; the one JavaScript
numeric behaviour that matters for the verified properties is NaN
propagation from an out-of-bounds array read, captured by the JsNum type.
External systems (the chain adapter, oracles, clocks) are modelled as
explicit environment inputs.
-/

set_option maxRecDepth 4000

namespace RangeOrderBot

/-! ## JavaScript number values

A JavaScript arithmetic value is either an ordinary number (modelled as an
exact rational) or NaN.  NaN arises in the embedded code from
`array[-1] + x` (an out-of-bounds read yields `undefined`, and
`number + undefined` is NaN).  Every ordering comparison against NaN is
false in JavaScript. -/

inductive JsNum where
  | num (q : ℚ)
  | nan
  deriving DecidableEq, Repr

/-- JavaScript `a > b` where `a` may be NaN: any comparison with NaN is false. -/
def JsNum.gtQ : JsNum → ℚ → Bool
  | .num a, b => a > b
  | .nan, _ => false

/-- JavaScript `a <= b` where `a` may be NaN: any comparison with NaN is false. -/
def JsNum.leQ : JsNum → ℚ → Bool
  | .num a, b => a ≤ b
  | .nan, _ => false

/-- JavaScript division of a possibly-NaN value by a nonzero constant. -/
def JsNum.divQ : JsNum → ℚ → JsNum
  | .num a, b => .num (a / b)
  | .nan, _ => .nan

/-- JavaScript `a + v` where `v` is an array read that may be `undefined`
(out of bounds); `number + undefined` is NaN. -/
def jsAddRead (a : ℚ) : Option ℤ → JsNum
  | some n => .num (a + n)
  | none => .nan

/-- JavaScript array indexing with an integer index: out-of-range (including
negative) indices read `undefined`, modelled as `none`. -/
def jsArrayGet (l : List ℤ) (i : ℤ) : Option ℤ :=
  match l with
  | [] => none
  | a :: t => if i = 0 then some a else if i < 0 then none else jsArrayGet t (i - 1)

/-- JavaScript `Array.prototype.indexOf` specialised to integer arrays:
the index of the first occurrence, or -1 when absent. -/
def jsIndexOf (l : List ℤ) (x : ℤ) : ℤ :=
  match l with
  | [] => -1
  | a :: t =>
    if a = x then 0
    else
      let r := jsIndexOf t x
      if r = -1 then -1 else r + 1

/-! ## The legal width table and the snapping step
(src/config/constants.ts and src/utils/rangeOrders.ts) -/

/-- Embeds `VALID_ORDER_WIDTHS` from src/config/constants.ts. -/
def VALID_ORDER_WIDTHS : List ℤ :=
  [1, 2, 4, 5, 8, 10, 16, 20, 25, 32, 40, 50, 64, 80, 100, 125, 128, 160, 200,
   250, 256, 320, 400, 500, 512, 625, 640, 800]

/-- Embeds the `reduce` step of `getValidRangeWidth`: JavaScript `reduce`
without an initial value starts from the first element and folds the rest,
replacing the accumulator only when the current entry is strictly closer to
the target. -/
def reduceClosest (target : ℚ) (x : ℤ) (xs : List ℤ) : ℤ :=
  xs.foldl
    (fun (prev curr : ℤ) =>
      if |(curr : ℚ) - target| < |(prev : ℚ) - target| then curr else prev) x

/-- Embeds `VALID_ORDER_WIDTHS.reduce(...)` from `getValidRangeWidth`. -/
def closestWidthTo (target : ℚ) : ℤ :=
  match VALID_ORDER_WIDTHS with
  | [] => 0
  | x :: xs => reduceClosest target x xs

/-- Embeds the final guard-and-return of the RIGHT branch of
`getValidRangeWidth` (the two checks run whether or not the fallback was
taken). -/
def finishRight (lowerScaled : ℚ) (adjusted : JsNum) : Except String (JsNum × JsNum) :=
  if adjusted.gtQ 1000 then .error "Adjust upper ticker can not be greater than 1"
  else if adjusted.leQ lowerScaled then .error "Adjust upper tick collision"
  else .ok (.num (lowerScaled / 1000), adjusted.divQ 1000)

/-- Embeds the RIGHT branch of `getValidRangeWidth`: widen upward from the
scaled lower bound by the snapped width; above 1000 fall back to the entry
one index below the snapped one (an out-of-bounds read when the snapped
width is the first entry, which makes the adjusted bound NaN). -/
def rightBranch (lowerScaled : ℚ) (closestWidth : ℤ) : Except String (JsNum × JsNum) :=
  if lowerScaled + (closestWidth : ℚ) > 1000 then
    if jsIndexOf VALID_ORDER_WIDTHS closestWidth < 0 then .error "Invalid range order width"
    else
      finishRight lowerScaled
        (jsAddRead lowerScaled
          (jsArrayGet VALID_ORDER_WIDTHS (jsIndexOf VALID_ORDER_WIDTHS closestWidth - 1)))
  else finishRight lowerScaled (.num (lowerScaled + closestWidth))

/-- Embeds the LEFT branch of `getValidRangeWidth`: widen downward from the
scaled upper bound by the snapped width. -/
def leftBranch (upperScaled : ℚ) (closestWidth : ℤ) : Except String (JsNum × JsNum) :=
  if upperScaled - (closestWidth : ℚ) ≤ 0 then
    .error "Adjust lower ticker can not be zero or negative"
  else if upperScaled - (closestWidth : ℚ) ≥ upperScaled then
    .error "Adjust lower tick collision"
  else .ok (.num ((upperScaled - closestWidth) / 1000), .num (upperScaled / 1000))

/-- Embeds `getValidRangeWidth` from src/utils/rangeOrders.ts.  Thrown
errors are modelled by `Except.error`; the precision guard
`(tick * 1000) % 1 !== 0` is modelled as the scaled tick not being an
integer. -/
def getValidRangeWidth (lowerTick upperTick : ℚ) (orderType : String) :
    Except String (JsNum × JsNum) :=
  if upperTick ≤ lowerTick then .error "Invalid tick spacing: upper <= lower"
  else if lowerTick ≤ 0 ∨ upperTick ≤ 0 then .error "Tick can not be zero or negative"
  else if (upperTick * 1000).den ≠ 1 then .error "Upper tick precision too high"
  else if (lowerTick * 1000).den ≠ 1 then .error "Lower tick precision too high"
  else if orderType = "RIGHT" then
    rightBranch (lowerTick * 1000) (closestWidthTo (upperTick * 1000 - lowerTick * 1000))
  else if orderType = "LEFT" then
    leftBranch (upperTick * 1000) (closestWidthTo (upperTick * 1000 - lowerTick * 1000))
  else .error "Invalid order type"

/-! ## Spec-side characterisation of the snapping step -/

/-- Characterises the first width-table entry of minimal absolute distance
to the target: the table splits as a prefix of strictly farther entries,
then `w`, and no entry anywhere in the table is strictly closer.  This is
exactly the "closest table entry, ties resolved to the earlier entry"
notion of the specification. -/
def IsClosestEntry (t : ℚ) (w : ℤ) : Prop :=
  ∃ l₁ l₂, VALID_ORDER_WIDTHS = l₁ ++ w :: l₂ ∧
    (∀ v ∈ VALID_ORDER_WIDTHS, |(w : ℚ) - t| ≤ |(v : ℚ) - t|) ∧
    (∀ v ∈ l₁, |(w : ℚ) - t| < |(v : ℚ) - t|)

/-! ## Position keys and range order specs (src/utils/types.ts) -/

/-- Embeds the SDK OrderType enum as used by the bot. -/
inductive OrderType where
  | CSUP
  | LONG_COLLATERAL
  | COLLATERAL_SHORT
  deriving DecidableEq, Repr

/-- Embeds PosKey from src/utils/types.ts (price bounds as exact rationals). -/
structure PosKey where
  owner : String
  operator : String
  lower : ℚ
  upper : ℚ
  orderType : OrderType
  deriving DecidableEq, Repr

/-- Embeds RangeOrderSpecs from src/utils/types.ts.  The source marks
`minOptionPriceTriggered` as optional (left side only); reading the absent
field on a right-side spec yields `undefined`, which is falsy, so it is
modelled as a plain Bool that right-side constructors set to false. -/
structure RangeOrderSpecs where
  posKey : Option PosKey
  collateralAmount : ℚ
  isValidWidth : Bool
  usesOptions : Bool
  minOptionPriceTriggered : Bool
  deriving DecidableEq, Repr

/-! ## The deposit controller (processDeposits, src/actions/hydratePools.ts)

The embedding returns which of the two `depositRangeOrderLiq` calls are
issued, as a pair (right side deposited, left side deposited); the deposit
transaction itself and the position-tracking push are external effects and
are not read by any embedded code. -/

/-- Embeds the decision logic of `processDeposits`: the collateral
sufficiency check against the sum of both sides, the skip of both sides
when either width is invalid, the per-side max-exposure guards, and the
per-side funding checks (options or sufficient collateral; the left side
additionally requires that the minimum-price trigger is off). -/
def processDeposits (collateralBalance maxExposure longBalance shortBalance : ℚ)
    (left right : RangeOrderSpecs) : Bool × Bool :=
  let sufficientCollateral : Bool :=
    decide (collateralBalance ≥ right.collateralAmount + left.collateralAmount)
  if !sufficientCollateral && decide (right.collateralAmount > 0) &&
      decide (left.collateralAmount > 0) then
    (false, false)
  else if !left.isValidWidth || !right.isValidWidth then
    (false, false)
  else
    (if decide (shortBalance ≥ maxExposure) then false
     else right.usesOptions || sufficientCollateral,
     if decide (longBalance ≥ maxExposure) then false
     else !left.minOptionPriceTriggered && (left.usesOptions || sufficientCollateral))

/-- The left-side spec returned by `prepareLeftSideOrder` when
`getValidRangeWidth` throws (the catch block of the source). -/
def leftSpecsInvalidWidth : RangeOrderSpecs :=
  { posKey := none, collateralAmount := 0, isValidWidth := false,
    usesOptions := false, minOptionPriceTriggered := false }

/-- A sample right-side position key funded from long option inventory. -/
def rightKeyLC : PosKey :=
  { owner := "lp", operator := "lp", lower := 1 / 10, upper := 1 / 5,
    orderType := OrderType.LONG_COLLATERAL }

/-- A healthy option-funded right-side spec. -/
def rightSpecsOptionFunded : RangeOrderSpecs :=
  { posKey := some rightKeyLC, collateralAmount := 0, isValidWidth := true,
    usesOptions := true, minOptionPriceTriggered := false }

/-- A sample collateral-short position key. -/
def rightKeyCS : PosKey :=
  { owner := "lp", operator := "lp", lower := 1 / 2, upper := 3 / 5,
    orderType := OrderType.COLLATERAL_SHORT }

/-- A collateral-requiring right-side spec used by the C6 witness. -/
def rightSpecsCollateralFunded : RangeOrderSpecs :=
  { posKey := some rightKeyCS, collateralAmount := 2, isValidWidth := true,
    usesOptions := false, minOptionPriceTriggered := false }

/-- A sample left-side position key funded from short option inventory. -/
def leftKeyCS : PosKey :=
  { owner := "lp", operator := "lp", lower := 2 / 5, upper := 1 / 2,
    orderType := OrderType.COLLATERAL_SHORT }

/-- An option-funded left-side spec used by the C6 witness. -/
def leftSpecsOptionFunded : RangeOrderSpecs :=
  { posKey := some leftKeyCS, collateralAmount := 0, isValidWidth := true,
    usesOptions := true, minOptionPriceTriggered := false }

/-! ## Per-instrument state and tracked positions (src/utils/types.ts)

`OptionParams` carries the four per-instrument flags; `Position` is a
tracked on-chain range-order leg; `BotState` is the global mutable state
(`state.lpRangeOrders` and `state.optionParams`). -/

/-- Embeds OptionParams from src/utils/types.ts. -/
structure OptionParams where
  market : String
  maturity : String
  isCall : Bool
  strike : ℚ
  delta : Option ℚ
  optionPrice : Option ℚ
  cycleOrders : Bool
  ivOracleFailure : Bool
  spotOracleFailure : Bool
  withdrawFailure : Bool
  deriving DecidableEq, Repr

/-- Embeds Position from src/utils/types.ts. -/
structure Position where
  market : String
  isCall : Bool
  strike : ℚ
  maturity : String
  poolAddress : String
  depositSize : ℚ
  posKey : PosKey
  isCollateral : Bool
  deriving DecidableEq, Repr

/-- Embeds the global mutable state object (src/config/state.ts). -/
structure BotState where
  lpRangeOrders : List Position
  optionParams : List OptionParams
  deriving DecidableEq, Repr

/-- The identity key (market, maturity, isCall, strike) on which both
`findIndex` lookups of the source match an option record. -/
def keyOf (o : OptionParams) : String × String × Bool × ℚ :=
  (o.market, o.maturity, o.isCall, o.strike)

/-- The identity key of a tracked position, in the same shape. -/
def posKeyOf (p : Position) : String × String × Bool × ℚ :=
  (p.market, p.maturity, p.isCall, p.strike)

/-- The `findIndex` predicate of `checkWithdrawStatus` and of the catch
block of `withdrawSettleLiquidity`: option matches position on market,
maturity, type and strike. -/
def optionMatchesPosition (o : OptionParams) (p : Position) : Bool :=
  decide (keyOf o = posKeyOf p)

/-- The `findIndex` predicate of `processStrikes`: option matches the
iterated option on market, maturity, type and strike. -/
def optionMatchesIdentity (o op : OptionParams) : Bool :=
  decide (keyOf o = keyOf op)

/-- Sets the withdrawFailure flag of one option record. -/
def setWF (o : OptionParams) : OptionParams :=
  { o with withdrawFailure := true }

/-- Clears cycleOrders and withdrawFailure of one option record (the two
assignments at the end of a deposit-pass iteration). -/
def clearCW (o : OptionParams) : OptionParams :=
  { o with cycleOrders := false, withdrawFailure := false }

/-- Updates the option list at one index with `setWF`. -/
def setWithdrawFailureAt (l : List OptionParams) (i : ℕ) : List OptionParams :=
  match l.get? i with
  | none => l
  | some o => l.set i (setWF o)

/-- Updates the option list at one index with `clearCW`. -/
def clearCycleAt (l : List OptionParams) (i : ℕ) : List OptionParams :=
  match l.get? i with
  | none => l
  | some o => l.set i (clearCW o)

/-! ## The withdraw pass (withdrawSettleLiquidity, src/actions/withdrawPools.ts)

The chain adapter is modelled as an environment giving, per position, the
observed pool token balance and whether the withdraw-or-settle attempt
(after its internal retry) succeeds. -/

/-- External outcomes consumed by the withdraw pass. -/
structure WithdrawEnv where
  lpTokenBalance : Position → ℚ
  withdrawOk : Position → Bool

/-- Embeds `checkWithdrawStatus`: on oracle failure withdraw
unconditionally, otherwise withdraw exactly when cycleOrders is set; a
missing option record is the fatal traceability error. -/
def checkWithdrawStatus (optionParams : List OptionParams) (p : Position) :
    Except String Bool :=
  match optionParams.findIdx? (fun o => optionMatchesPosition o p) with
  | none => .error "lpRangeOrder was not traceable in state.optionParams"
  | some i =>
    match optionParams.get? i with
    | none => .error "lpRangeOrder was not traceable in state.optionParams"
    | some o =>
      if o.ivOracleFailure || o.spotOracleFailure then .ok true
      else .ok o.cycleOrders

/-- Embeds one iteration of the withdraw loop: skip when not withdrawable;
a zero balance removes the tracked position without a transaction; a
successful withdraw removes it; a failed withdraw sets the withdrawFailure
flag on the matching option record. -/
def withdrawStep (env : WithdrawEnv) (st : BotState) (p : Position) :
    Except String BotState :=
  match checkWithdrawStatus st.optionParams p with
  | .error e => .error e
  | .ok false => .ok st
  | .ok true =>
    if env.lpTokenBalance p = 0 then
      .ok { st with lpRangeOrders := st.lpRangeOrders.filter (fun ro => decide (ro ≠ p)) }
    else if env.withdrawOk p then
      .ok { st with lpRangeOrders := st.lpRangeOrders.filter (fun ro => decide (ro ≠ p)) }
    else
      match st.optionParams.findIdx? (fun o => optionMatchesPosition o p) with
      | none => .error "lpRangeOrder was not traceable in state.optionParams"
      | some i => .ok { st with optionParams := setWithdrawFailureAt st.optionParams i }

/-- The withdraw loop over the pre-filtered position list. -/
def withdrawLoop (env : WithdrawEnv) : List Position → BotState → Except String BotState
  | [], st => .ok st
  | p :: rest, st =>
    match withdrawStep env st p with
    | .error e => .error e
    | .ok st2 => withdrawLoop env rest st2

/-- Embeds `withdrawSettleLiquidity`: early return when the market has no
option records, else run the loop over the tracked positions of the
market. -/
def withdrawSettleLiquidity (st : BotState) (market : String) (env : WithdrawEnv) :
    Except String BotState :=
  if (st.optionParams.filter (fun o => decide (o.market = market))).isEmpty then .ok st
  else withdrawLoop env (st.lpRangeOrders.filter (fun ro => decide (ro.market = market))) st

/-! ## The deposit pass (processStrikes, src/actions/hydratePools.ts)

External data consumed per iteration (pool lookup or deployment outcome,
balances, the two prepared side specs and the collateral token balance)
are supplied by an environment indexed by the option record index.  An
event records, per iteration that got past all skip guards, whether the
withdrawFailure gate blocked the deposits and otherwise which sides
`processDeposits` deposited. -/

/-- External outcomes consumed by one deposit-pass iteration. -/
structure DepositEnvData where
  poolAvailable : Bool
  collateralBalance : ℚ
  longBalance : ℚ
  shortBalance : ℚ
  leftSpecs : RangeOrderSpecs
  rightSpecs : RangeOrderSpecs
  deriving Repr

/-- One deposit-pass iteration that reached the withdrawFailure gate:
`deposits = none` means the gate blocked the instrument, otherwise the
pair says which sides were deposited. -/
structure DepositEvent where
  idx : ℕ
  deposits : Option (Bool × Bool)
  deriving DecidableEq, Repr

/-- JavaScript `Math.abs(op.delta!) > bound` where delta may be undefined:
`Math.abs(undefined)` is NaN and every NaN comparison is false. -/
def jsAbsGt (d : Option ℚ) (bound : ℚ) : Bool :=
  match d with
  | some q => decide (|q| > bound)
  | none => false

/-- JavaScript `Math.abs(op.delta!) < bound`, NaN semantics as above. -/
def jsAbsLt (d : Option ℚ) (bound : ℚ) : Bool :=
  match d with
  | some q => decide (|q| < bound)
  | none => false

/-- Embeds the per-instrument loop of `processStrikes` over the indices of
the filtered batch.  Guard order follows the source: oracle failure breaks
out of the whole batch; an unset cycleOrders, an out-of-range delta or a
failed pool fetch skip the iteration; then the option record is looked up
by identity (a missing record is the fatal traceability error), the
withdrawFailure gate decides whether `processDeposits` runs, and the
iteration ends by clearing cycleOrders and withdrawFailure. -/
def depositLoop (minDelta maxDelta maxExposure : ℚ) (env : ℕ → DepositEnvData) :
    List ℕ → BotState → List DepositEvent → List DepositEvent × Except String BotState
  | [], st, evs => (evs, .ok st)
  | i :: rest, st, evs =>
    match st.optionParams.get? i with
    | none => (evs, .ok st)
    | some op =>
      if op.ivOracleFailure || op.spotOracleFailure then (evs, .ok st)
      else if !op.cycleOrders then depositLoop minDelta maxDelta maxExposure env rest st evs
      else if jsAbsGt op.delta maxDelta || jsAbsLt op.delta minDelta then
        depositLoop minDelta maxDelta maxExposure env rest st evs
      else if !(env i).poolAvailable then depositLoop minDelta maxDelta maxExposure env rest st evs
      else
        match st.optionParams.findIdx? (fun o => optionMatchesIdentity o op) with
        | none => (evs, .error "lpRangeOrder was not traceable in state.optionParams")
        | some j =>
          match st.optionParams.get? j with
          | none => (evs, .error "lpRangeOrder was not traceable in state.optionParams")
          | some oj =>
            let dep : Option (Bool × Bool) :=
              if oj.withdrawFailure then none
              else
                some (processDeposits (env i).collateralBalance maxExposure
                  (env i).longBalance (env i).shortBalance
                  (env i).leftSpecs (env i).rightSpecs)
            depositLoop minDelta maxDelta maxExposure env rest
              { st with optionParams := clearCycleAt st.optionParams j }
              (evs ++ [{ idx := i, deposits := dep }])

/-- The indices of the option records of one (market, maturity, type)
batch, in iteration order (the source filters `state.optionParams`, which
preserves state order). -/
def batchIndices (st : BotState) (market maturityString : String) (isCall : Bool) : List ℕ :=
  (List.range st.optionParams.length).filter (fun i =>
    match st.optionParams.get? i with
    | none => false
    | some o =>
      decide (o.market = market) && decide (o.isCall = isCall) &&
        decide (o.maturity = maturityString))

/-- Embeds `processStrikes`: the two expiry guards, then the batch loop. -/
def processStrikes (minDelta maxDelta maxExposure : ℚ) (daysToExpiration : ℤ)
    (env : ℕ → DepositEnvData) (market maturityString : String) (isCall : Bool)
    (st : BotState) : List DepositEvent × Except String BotState :=
  if daysToExpiration ≤ 0 then ([], .ok st)
  else if daysToExpiration > 365 then ([], .ok st)
  else depositLoop minDelta maxDelta maxExposure env
    (batchIndices st market maturityString isCall) st []

/-- Reads the oracle-failure pair of the option record at one index. -/
def oracleFlaggedAt (l : List OptionParams) (i : ℕ) : Bool :=
  match l.get? i with
  | none => false
  | some o => o.ivOracleFailure || o.spotOracleFailure

/-! ## Evolution of the option list across the two passes -/

/-- The identity key stored at an index, if any. -/
def keyAt (l : List OptionParams) (m : ℕ) : Option (String × String × Bool × ℚ) :=
  (l.get? m).map keyOf

/-- Pointwise evolution across the withdraw pass: every entry is unchanged
or had its withdrawFailure flag set. -/
def WFEvol (l1 l2 : List OptionParams) : Prop :=
  l1.length = l2.length ∧
    ∀ m, l2.get? m = l1.get? m ∨
      ∃ o, l1.get? m = some o ∧ l2.get? m = some (setWF o)

/-- The event recorded by a completed deposit-pass iteration. -/
def bodyEvent (maxE : ℚ) (env : ℕ → DepositEnvData) (i : ℕ) (oj : OptionParams) :
    DepositEvent where
  idx := i
  deposits :=
    if oj.withdrawFailure then none
    else some (processDeposits (env i).collateralBalance maxE
      (env i).longBalance (env i).shortBalance (env i).leftSpecs (env i).rightSpecs)

/-- Pointwise evolution across the deposit pass: every entry is unchanged
or had cycleOrders and withdrawFailure cleared. -/
def CWEvol (l1 l2 : List OptionParams) : Prop :=
  l1.length = l2.length ∧
    ∀ m, l2.get? m = l1.get? m ∨
      ∃ o, l1.get? m = some o ∧ l2.get? m = some (clearCW o)

/-- Flagged option record used in the oracle-failure witnesses. -/
def opHealthy : OptionParams :=
  { market := "WETH", maturity := "07JUN24", isCall := true, strike := 2000,
    delta := some 2, optionPrice := some 100, cycleOrders := true,
    ivOracleFailure := false, spotOracleFailure := false, withdrawFailure := false }

/-- An option record with a tripped iv-oracle flag. -/
def opFlagged : OptionParams :=
  { opHealthy with strike := 2100, ivOracleFailure := true }

/-- A healthy option record after the flagged one in state order. -/
def opTail : OptionParams :=
  { opHealthy with strike := 2200 }

/-- A state with a flagged instrument between two healthy ones. -/
def stOracle : BotState :=
  { lpRangeOrders := [], optionParams := [opHealthy, opFlagged, opTail] }

/-- A deposit environment with every external lookup succeeding. -/
def denvPool : ℕ → DepositEnvData := fun _ =>
  { poolAvailable := true, collateralBalance := 100, longBalance := 0, shortBalance := 0,
    leftSpecs := leftSpecsOptionFunded, rightSpecs := rightSpecsOptionFunded }

/-- A tracked position matching `opHealthy`. -/
def posTracked : Position :=
  { market := "WETH", isCall := true, strike := 2000, maturity := "07JUN24",
    poolAddress := "0xPool", depositSize := 1, posKey := rightKeyCS, isCollateral := true }

/-- A single-instrument state whose tracked position is due for a
withdraw. -/
def stC2 : BotState := { lpRangeOrders := [posTracked], optionParams := [opHealthy] }

/-- A withdraw environment with a nonzero pool balance and a failing
withdraw attempt. -/
def wenvFail : WithdrawEnv := { lpTokenBalance := fun _ => 1, withdrawOk := fun _ => false }

/-- The state after the failed withdraw: the flag is set, the position is
still tracked. -/
def stC2AfterW : BotState :=
  { lpRangeOrders := [posTracked], optionParams := [setWF opHealthy] }

/-- A deposit environment whose pool lookup fails. -/
def denvNoPool : ℕ → DepositEnvData := fun _ =>
  { poolAvailable := false, collateralBalance := 100, longBalance := 0, shortBalance := 0,
    leftSpecs := leftSpecsOptionFunded, rightSpecs := rightSpecsOptionFunded }

/-! ### C7: transaction retry wrappers

Each on-chain wrapper (`depositPosition`, `withdrawPosition` with its
settle branch, `deployPool`, `annihilatePositions`) follows the same
source pattern: try the transaction; inside the try, a confirmation with
`status == 0` is thrown as an error; the catch waits a fixed delay and,
if `retry` is set, re-enters the function once with `retry = false`,
otherwise rethrows.  We model the chain by an oracle `outcomes` giving
the result of the k-th attempt, and instrument each wrapper with the
attempt counter `k`; the result is the total number of attempts paired
with the surfaced result. -/

/-- The observable result of one transaction attempt: the call threw
(transport failure), or it confirmed with the given status. -/
inductive TxOutcome where
  | thrown : TxOutcome
  | confirmed (status : ℕ) : TxOutcome
deriving DecidableEq

/-- An attempt counts as failed when it threw or when the confirmation
came back with status 0 (confirmed-but-reverted): both reach the same
catch block in the source. -/
def txFails : TxOutcome → Bool
  | .thrown => true
  | .confirmed s => decide (s = 0)

/-- `depositPosition` retry wrapper (hydratePools.ts). -/
def depositPosition (outcomes : ℕ → TxOutcome) (k : ℕ) (retry : Bool) :
    ℕ × Except String Unit :=
  if txFails (outcomes k) then
    if retry then depositPosition outcomes (k + 1) false
    else (k + 1, .error "Error depositing LP Range Order")
  else (k + 1, .ok ())
termination_by retry.toNat
decreasing_by simp_all

/-- `withdrawPosition` retry wrapper (withdrawPools.ts): an expired pool
is settled instead of withdrawn; both branches share the retry shape and
a retry re-enters the whole function (hence the same branch). -/
def withdrawPosition (outcomes : ℕ → TxOutcome) (now exp : ℕ) (k : ℕ) (retry : Bool) :
    ℕ × Except String Unit :=
  if exp < now then
    if txFails (outcomes k) then
      if retry then withdrawPosition outcomes now exp (k + 1) false
      else (k + 1, .error "Error settling LP Range Order")
    else (k + 1, .ok ())
  else
    if txFails (outcomes k) then
      if retry then withdrawPosition outcomes now exp (k + 1) false
      else (k + 1, .error "Error withdrawing LP Range Order")
    else (k + 1, .ok ())
termination_by retry.toNat
decreasing_by all_goals simp_all

/-- `deployPool` retry wrapper (hydratePools.ts). -/
def deployPool (outcomes : ℕ → TxOutcome) (k : ℕ) (retry : Bool) :
    ℕ × Except String Unit :=
  if txFails (outcomes k) then
    if retry then deployPool outcomes (k + 1) false
    else (k + 1, .error "Error deploying pool")
  else (k + 1, .ok ())
termination_by retry.toNat
decreasing_by simp_all

/-- `annihilatePositions` retry wrapper (hydratePools.ts). -/
def annihilatePositions (outcomes : ℕ → TxOutcome) (k : ℕ) (retry : Bool) :
    ℕ × Except String Unit :=
  if txFails (outcomes k) then
    if retry then annihilatePositions outcomes (k + 1) false
    else (k + 1, .error "Error annihilating positions")
  else (k + 1, .ok ())
termination_by retry.toNat
decreasing_by simp_all

/-! ### C8: the delta strike filter (strikes.ts, filterSurroundingStrikes)

The source calls `strikes.filter(async (strike) => {...})`.  The async
callback returns a Promise; `Array.prototype.filter` tests the callback
result for truthiness, and a Promise object is always truthy, so the
filter keeps every strike.  `Promise.all` over the kept numbers then
resolves to those same numbers.  We embed both the boolean the callback
RESOLVES to (`deltaKeep`, the intended predicate) and the truthiness the
filter actually tests (`promiseTruthy`). -/

/-- The boolean the async callback resolves to: keep a strike whose
pricing failed (`option` undefined); otherwise keep it iff the delta
(absolute delta for puts) lies strictly between minDelta and maxDelta.
`delta` is `none` when `getGreeksAndIV` returned undefineds. -/
def deltaKeep (minD maxD : ℚ) (isCall : Bool) (delta : Option ℚ) : Bool :=
  match delta with
  | none => true
  | some d =>
      let optionDelta := if isCall then d else |d|
      decide (minD < optionDelta) && decide (maxD > optionDelta)

/-- JS truthiness of the async callback's return value: an async
function returns a Promise object, and every object is truthy,
whatever boolean it later resolves to. -/
def promiseTruthy (_b : Bool) : Bool := true

/-- `filterSurroundingStrikes` (strikes.ts): `strikes.filter` applied to
the async callback, i.e. to the truthiness of its Promise; `delta`
gives each strike's priced delta (`none` = pricing failed). -/
def filterSurroundingStrikes (minD maxD : ℚ) (delta : ℚ → Option ℚ)
    (isCall : Bool) (strikes : List ℚ) : List ℚ :=
  strikes.filter fun strike => promiseTruthy (deltaKeep minD maxD isCall (delta strike))

/-! ### C9: duplicate-leg detection in fetchOrDeployPool (v1)

The source computes the pool address from the pool key, then searches the
tracked positions with
`position.poolAddress === poolAddress && position.isCall === isCall`
and returns null (skip) on a hit; further guards skip when the pool is
not deployed and auto-deploy is off, when the option is under the
minimum DTE, or when an auto-deploy attempt fails.  The decision takes
no side (left/right) input at all. -/

/-- Decision core of v1 `fetchOrDeployPool` (hydratePools.ts): `true`
means a pool handle is returned, `false` means null (the instrument is
skipped).  `deployOk` is whether an auto-deploy attempt succeeds. -/
def fetchOrDeployPool (lpRangeOrders : List Position) (poolAddress : String)
    (isCall : Bool) (isDeployed autoDeploy : Bool) (ttm minDTE : ℚ)
    (deployOk : Bool) : Bool :=
  if (lpRangeOrders.find? fun position =>
        decide (position.poolAddress = poolAddress) && (position.isCall == isCall)).isSome
  then false
  else if !isDeployed && !autoDeploy then false
  else if ttm * 365 < minDTE then false
  else if !isDeployed && autoDeploy then deployOk
  else true

/-- A left-side price window with a long-collateral order type. -/
def leftKeyLC : PosKey :=
  { owner := "lp", operator := "lp", lower := 2 / 5, upper := 1 / 2,
    orderType := OrderType.LONG_COLLATERAL }

/-- A tracked LEFT-side leg (long-collateral order type) in pool 0xPool. -/
def posLeftLegC9 : Position :=
  { market := "WETH", isCall := true, strike := 2000, maturity := "07JUN24",
    poolAddress := "0xPool", depositSize := 1, posKey := leftKeyLC, isCollateral := true }

/-! ## Theorems -/

/-- The fold underlying `reduceClosest` returns the first minimiser of the
distance to the target, stated over an arbitrary nonempty list. -/
theorem reduceClosest_first_min (t : ℚ) :
    ∀ (xs : List ℤ) (x : ℤ), ∃ l₁ l₂, x :: xs = l₁ ++ reduceClosest t x xs :: l₂ ∧
      (∀ v ∈ x :: xs, |(reduceClosest t x xs : ℚ) - t| ≤ |(v : ℚ) - t|) ∧
      (∀ v ∈ l₁, |(reduceClosest t x xs : ℚ) - t| < |(v : ℚ) - t|) := by
  intro xs
  induction xs with
  | nil =>
    intro x
    refine ⟨[], [], by simp [reduceClosest], ?_, by simp⟩
    intro v hv
    simp only [List.mem_singleton] at hv
    simp [reduceClosest, hv]
  | cons y ys ih =>
    intro x
    have hstep : reduceClosest t x (y :: ys) =
        reduceClosest t (if |(y : ℚ) - t| < |(x : ℚ) - t| then y else x) ys := by
      simp only [reduceClosest, List.foldl]
    by_cases hxy : |(y : ℚ) - t| < |(x : ℚ) - t|
    · -- the accumulator becomes y
      have hr : reduceClosest t x (y :: ys) = reduceClosest t y ys := by
        rw [hstep, if_pos hxy]
      obtain ⟨l₁, l₂, hsplit, hmin, hfirst⟩ := ih y
      refine ⟨x :: l₁, l₂, ?_, ?_, ?_⟩
      · simp only [List.cons_append]
        rw [hr, ← hsplit]
      · intro v hv
        rw [hr]
        rcases List.mem_cons.mp hv with hvx | hvtail
        · rw [hvx]
          exact le_trans (hmin y (List.mem_cons_self _ _)) (le_of_lt hxy)
        · exact hmin v hvtail
      · intro v hv
        rw [hr]
        rcases List.mem_cons.mp hv with hvx | hvl
        · rw [hvx]
          exact lt_of_le_of_lt (hmin y (List.mem_cons_self _ _)) hxy
        · exact hfirst v hvl
    · -- the accumulator stays x
      have hr : reduceClosest t x (y :: ys) = reduceClosest t x ys := by
        rw [hstep, if_neg hxy]
      obtain ⟨l₁, l₂, hsplit, hmin, hfirst⟩ := ih x
      have hxle : |(x : ℚ) - t| ≤ |(y : ℚ) - t| := not_lt.mp hxy
      cases l₁ with
      | nil =>
        -- the minimiser is x itself
        simp only [List.nil_append] at hsplit
        have hrx : reduceClosest t x ys = x := by
          injection hsplit with h1 _
          exact h1.symm
        refine ⟨[], y :: ys, by simp [hr, hrx], ?_, by simp⟩
        intro v hv
        rw [hr]
        rcases List.mem_cons.mp hv with hvx | hvtail
        · rw [hvx]; exact hmin x (List.mem_cons_self _ _)
        · rcases List.mem_cons.mp hvtail with hvy | hvys
          · rw [hvy, hrx]; exact hxle
          · exact hmin v (List.mem_cons.mpr (Or.inr hvys))
      | cons a l₁' =>
        -- the minimiser lies inside ys; x = a heads the strict prefix
        simp only [List.cons_append] at hsplit
        have hpair : x = a ∧ ys = l₁' ++ reduceClosest t x ys :: l₂ := by
          simpa [List.cons.injEq] using hsplit
        have ha : a = x := hpair.1.symm
        have htail : ys = l₁' ++ reduceClosest t x ys :: l₂ := hpair.2
        have hxstrict : |(reduceClosest t x ys : ℚ) - t| < |(x : ℚ) - t| := by
          have h := hfirst a (List.mem_cons_self _ _)
          rwa [ha] at h
        refine ⟨x :: y :: l₁', l₂, ?_, ?_, ?_⟩
        · simp only [List.cons_append]
          rw [hr, ← htail]
        · intro v hv
          rw [hr]
          rcases List.mem_cons.mp hv with hvx | hvtail
          · rw [hvx]; exact hmin x (List.mem_cons_self _ _)
          · rcases List.mem_cons.mp hvtail with hvy | hvys
            · rw [hvy]
              exact le_trans (hmin x (List.mem_cons_self _ _)) hxle
            · exact hmin v (List.mem_cons.mpr (Or.inr hvys))
        · intro v hv
          rw [hr]
          rcases List.mem_cons.mp hv with hvx | hvtail
          · rw [hvx]; exact hxstrict
          · rcases List.mem_cons.mp hvtail with hvy | hvl
            · rw [hvy]; exact lt_of_lt_of_le hxstrict hxle
            · have h := hfirst v (List.mem_cons.mpr (Or.inr hvl))
              exact h

/-- The snapped width computed by the code is the first-minimising table
entry in the sense of the specification. -/
theorem closestWidthTo_isClosest (t : ℚ) : IsClosestEntry t (closestWidthTo t) := by
  obtain ⟨l₁, l₂, hsplit, hmin, hfirst⟩ := reduceClosest_first_min t
    [2, 4, 5, 8, 10, 16, 20, 25, 32, 40, 50, 64, 80, 100, 125, 128, 160, 200,
     250, 256, 320, 400, 500, 512, 625, 640, 800] 1
  exact ⟨l₁, l₂, hsplit, hmin, hfirst⟩

/-- The snapped width is always a member of the width table. -/
theorem closestWidthTo_mem (t : ℚ) : closestWidthTo t ∈ VALID_ORDER_WIDTHS := by
  obtain ⟨l₁, l₂, hsplit, _, _⟩ := closestWidthTo_isClosest t
  rw [hsplit]
  exact List.mem_append.mpr (Or.inr (List.mem_cons_self _ _))

/-- For a list member, `jsIndexOf` is nonnegative and reads back the member. -/
theorem jsIndexOf_get {l : List ℤ} {x : ℤ} (h : x ∈ l) :
    0 ≤ jsIndexOf l x ∧ l.get? (jsIndexOf l x).toNat = some x := by
  induction l with
  | nil => simp at h
  | cons a t ih =>
    by_cases hax : a = x
    · subst hax
      constructor
      · simp [jsIndexOf]
      · simp [jsIndexOf]
    · have hxt : x ∈ t := by
        rcases List.mem_cons.mp h with h1 | h2
        · exact absurd h1.symm hax
        · exact h2
      obtain ⟨hnn, hget⟩ := ih hxt
      have hne : jsIndexOf t x ≠ -1 := by omega
      have hval : jsIndexOf (a :: t) x = jsIndexOf t x + 1 := by
        simp only [jsIndexOf, if_neg hax, if_neg hne]
      constructor
      · omega
      · rw [hval]
        have htn : (jsIndexOf t x + 1).toNat = (jsIndexOf t x).toNat + 1 := by omega
        rw [htn, List.get?_cons_succ]
        exact hget

/-- A successful JavaScript array read means the index was in range. -/
theorem jsArrayGet_some {l : List ℤ} {i : ℤ} {w : ℤ} (h : jsArrayGet l i = some w) :
    0 ≤ i ∧ l.get? i.toNat = some w := by
  induction l generalizing i with
  | nil => simp [jsArrayGet] at h
  | cons a t ih =>
    unfold jsArrayGet at h
    by_cases h0 : i = 0
    · subst h0
      rw [if_pos rfl] at h
      refine ⟨le_refl 0, ?_⟩
      simpa using h
    · rw [if_neg h0] at h
      by_cases hneg : i < 0
      · rw [if_pos hneg] at h; simp at h
      · rw [if_neg hneg] at h
        obtain ⟨hnn, hget⟩ := ih h
        have h1 : 0 ≤ i := by omega
        refine ⟨h1, ?_⟩
        have htn : i.toNat = (i - 1).toNat + 1 := by omega
        rw [htn, List.get?_cons_succ]
        exact hget

/-- Unpacks a successful run of the final guards of the RIGHT branch. -/
theorem finishRight_ok {L : ℚ} {adj a b : JsNum}
    (h : finishRight L adj = .ok (a, b)) :
    a = .num (L / 1000) ∧ b = adj.divQ 1000 ∧
      adj.gtQ 1000 = false ∧ adj.leQ L = false := by
  unfold finishRight at h
  cases hgt : adj.gtQ 1000 with
  | true => simp [hgt] at h
  | false =>
    cases hle : adj.leQ L with
    | true => simp [hgt, hle] at h
    | false =>
      simp only [hgt, hle, Bool.false_eq_true, if_false, Except.ok.injEq,
        Prod.mk.injEq] at h
      exact ⟨h.1.symm, h.2.symm, rfl, rfl⟩

/-- Unpacks a successful RIGHT-branch run that produced numeric bounds:
either the snapped width fit below 1000, or the fallback table read
succeeded. -/
theorem rightBranch_ok {L : ℚ} {c : ℤ} {lo hi : ℚ}
    (h : rightBranch L c = .ok (.num lo, .num hi)) :
    lo = L / 1000 ∧
      ((¬L + (c : ℚ) > 1000) ∧ hi = (L + c) / 1000 ∨
        L + (c : ℚ) > 1000 ∧
          ∃ w : ℤ,
            jsArrayGet VALID_ORDER_WIDTHS (jsIndexOf VALID_ORDER_WIDTHS c - 1) = some w ∧
              hi = (L + w) / 1000) := by
  unfold rightBranch at h
  by_cases hov : L + (c : ℚ) > 1000
  · rw [if_pos hov] at h
    by_cases hidx : jsIndexOf VALID_ORDER_WIDTHS c < 0
    · rw [if_pos hidx] at h; simp at h
    · rw [if_neg hidx] at h
      obtain ⟨ha, hb, _, _⟩ := finishRight_ok h
      have hlo : lo = L / 1000 := by
        cases ha; rfl
      cases harr : jsArrayGet VALID_ORDER_WIDTHS (jsIndexOf VALID_ORDER_WIDTHS c - 1) with
      | none =>
        rw [harr] at hb
        simp [jsAddRead, JsNum.divQ] at hb
      | some w =>
        rw [harr] at hb
        simp only [jsAddRead, JsNum.divQ, JsNum.num.injEq] at hb
        exact ⟨hlo, Or.inr ⟨hov, w, rfl, hb⟩⟩
  · rw [if_neg hov] at h
    obtain ⟨ha, hb, _, _⟩ := finishRight_ok h
    have hlo : lo = L / 1000 := by cases ha; rfl
    simp only [JsNum.divQ, JsNum.num.injEq] at hb
    exact ⟨hlo, Or.inl ⟨hov, hb⟩⟩

/-- Unpacks a successful LEFT-branch run. -/
theorem leftBranch_ok {U : ℚ} {c : ℤ} {lo hi : ℚ}
    (h : leftBranch U c = .ok (.num lo, .num hi)) :
    lo = (U - c) / 1000 ∧ hi = U / 1000 := by
  unfold leftBranch at h
  by_cases h1 : U - (c : ℚ) ≤ 0
  · rw [if_pos h1] at h; simp at h
  · rw [if_neg h1] at h
    by_cases h2 : U - (c : ℚ) ≥ U
    · rw [if_pos h2] at h; simp at h
    · rw [if_neg h2] at h
      simp only [Except.ok.injEq, Prod.mk.injEq, JsNum.num.injEq] at h
      exact ⟨h.1.symm, h.2.symm⟩

/-! ## Claim C3: the returned width versus the closest table entry -/

/-- C3 counterexample: for lowerTick 0.9 and upperTick 1.02 (both at 1e-3
granularity, upper > lower > 0) the ask-side planner returns the bounds
0.9 and 1.0, whose width in 1e-3 units is 100; yet the table entry 125 is
strictly closer to the unsnapped target width 120 than 100 is.  So the
returned width is not always the closest table entry. -/
theorem getValidRangeWidth_not_closest :
    getValidRangeWidth (9 / 10) (51 / 50) "RIGHT" = .ok (.num (9 / 10), .num 1) ∧
      ((1 : ℚ) - 9 / 10) * 1000 = 100 ∧
      (125 : ℤ) ∈ VALID_ORDER_WIDTHS ∧
      |(125 : ℚ) - (51 / 50 - 9 / 10) * 1000| < |(100 : ℚ) - (51 / 50 - 9 / 10) * 1000| := by
  refine ⟨?_, by norm_num, by simp [VALID_ORDER_WIDTHS], by norm_num⟩
  norm_num [getValidRangeWidth, closestWidthTo, reduceClosest, rightBranch, finishRight,
    jsIndexOf, jsArrayGet, jsAddRead, JsNum.gtQ, JsNum.leQ, JsNum.divQ, VALID_ORDER_WIDTHS,
    List.foldl]

/-- C3 (amended): whenever the Range Width Planner returns numeric tick
bounds, their width in 1e-3 units is a member of the legal-width table, and
it is the table entry closest in absolute difference to the unsnapped
target width (ties to the earlier entry) — except for an ask-side (RIGHT)
plan whose closest entry would push the upper bound above 1.0, in which
case it is the table entry at the immediately preceding index. -/
theorem getValidRangeWidth_width_amended
    (lower upper : ℚ) (ot : String) (lo hi : ℚ)
    (h : getValidRangeWidth lower upper ot = .ok (.num lo, .num hi)) :
    ∃ w : ℤ, w ∈ VALID_ORDER_WIDTHS ∧ (hi - lo) * 1000 = (w : ℚ) ∧
      (IsClosestEntry ((upper - lower) * 1000) w ∨
        (ot = "RIGHT" ∧ ∃ c : ℤ, ∃ k : ℕ, IsClosestEntry ((upper - lower) * 1000) c ∧
          VALID_ORDER_WIDTHS.get? k = some w ∧
          VALID_ORDER_WIDTHS.get? (k + 1) = some c ∧ 1000 < lower * 1000 + (c : ℚ))) := by
  have htw : upper * 1000 - lower * 1000 = (upper - lower) * 1000 := by ring
  unfold getValidRangeWidth at h
  split at h
  · simp at h
  split at h
  · simp at h
  split at h
  · simp at h
  split at h
  · simp at h
  split at h
  · -- RIGHT branch
    rename_i hot
    obtain ⟨hlo, hcase⟩ := rightBranch_ok h
    have hlo' : lo = lower := by rw [hlo]; ring
    rcases hcase with ⟨_, hhi⟩ | ⟨hov, w, harr, hhi⟩
    · refine ⟨closestWidthTo (upper * 1000 - lower * 1000), closestWidthTo_mem _, ?_, Or.inl ?_⟩
      · rw [hhi, hlo']; ring
      · rw [← htw]; exact closestWidthTo_isClosest _
    · obtain ⟨_, hget⟩ := jsArrayGet_some harr
      obtain ⟨hinn, hcget⟩ :=
        jsIndexOf_get (closestWidthTo_mem (upper * 1000 - lower * 1000))
      have hidx1 : 0 ≤ jsIndexOf VALID_ORDER_WIDTHS
          (closestWidthTo (upper * 1000 - lower * 1000)) - 1 :=
        (jsArrayGet_some harr).1
      refine ⟨w, List.get?_mem hget, ?_,
        Or.inr ⟨hot, closestWidthTo (upper * 1000 - lower * 1000),
          (jsIndexOf VALID_ORDER_WIDTHS
            (closestWidthTo (upper * 1000 - lower * 1000)) - 1).toNat,
          ?_, hget, ?_, hov⟩⟩
      · rw [hhi, hlo']; ring
      · rw [← htw]; exact closestWidthTo_isClosest _
      · have hstep : (jsIndexOf VALID_ORDER_WIDTHS
            (closestWidthTo (upper * 1000 - lower * 1000)) - 1).toNat + 1 =
            (jsIndexOf VALID_ORDER_WIDTHS
              (closestWidthTo (upper * 1000 - lower * 1000))).toNat := by omega
        rw [hstep]
        exact hcget
  · split at h
    · -- LEFT branch
      obtain ⟨hlo, hhi⟩ := leftBranch_ok h
      refine ⟨closestWidthTo (upper * 1000 - lower * 1000), closestWidthTo_mem _, ?_, Or.inl ?_⟩
      · rw [hlo, hhi]; ring
      · rw [← htw]; exact closestWidthTo_isClosest _
    · simp at h

/-- Witness for the amended C3 at lowerTick 0.4, upperTick 0.5, ask side. -/
theorem getValidRangeWidth_width_amended_witness :
    ∃ w : ℤ, w ∈ VALID_ORDER_WIDTHS ∧ ((1 : ℚ) / 2 - 2 / 5) * 1000 = (w : ℚ) ∧
      (IsClosestEntry (((1 : ℚ) / 2 - 2 / 5) * 1000) w ∨
        ("RIGHT" = "RIGHT" ∧ ∃ c : ℤ, ∃ k : ℕ, IsClosestEntry (((1 : ℚ) / 2 - 2 / 5) * 1000) c ∧
          VALID_ORDER_WIDTHS.get? k = some w ∧
          VALID_ORDER_WIDTHS.get? (k + 1) = some c ∧ 1000 < (2 : ℚ) / 5 * 1000 + (c : ℚ))) :=
  getValidRangeWidth_width_amended (2 / 5) (1 / 2) "RIGHT" (2 / 5) (1 / 2)
    (by norm_num [getValidRangeWidth, closestWidthTo, reduceClosest, rightBranch, finishRight,
      jsIndexOf, jsArrayGet, jsAddRead, JsNum.gtQ, JsNum.leQ, JsNum.divQ, VALID_ORDER_WIDTHS,
      List.foldl])

/-! ## Claim C4: ask-side overflow handling -/

/-- C4: at lowerTick 1.024 and upperTick 1.025 (a legal 1e-3 pair) every
legal width overflows the maximum price: the snapped width is the first
table entry, the fallback reads the width table at index -1 (undefined),
and the planner returns a NaN upper bound as a successful plan instead of
failing.  This contradicts the claim that planning fails (no bounds are
returned) when even the smallest legal width overflows; the guards of the
source cannot catch the NaN because every NaN comparison is false. -/
theorem getValidRangeWidth_nan_upper :
    getValidRangeWidth (128 / 125) (41 / 40) "RIGHT" = .ok (.num (128 / 125), .nan) ∧
      (1024 : ℚ) + (1 : ℤ) > 1000 ∧ VALID_ORDER_WIDTHS.get? 0 = some 1 := by
  refine ⟨?_, by norm_num, by simp [VALID_ORDER_WIDTHS]⟩
  norm_num [getValidRangeWidth, closestWidthTo, reduceClosest, rightBranch, finishRight,
    jsIndexOf, jsArrayGet, jsAddRead, JsNum.gtQ, JsNum.leQ, JsNum.divQ, VALID_ORDER_WIDTHS,
    List.foldl]

/-! ## Claim C5: side-local recovery of planning infeasibility -/

/-- C5 counterexample: the left plan failed width snapping
(`isValidWidth = false`, the exact spec the catch block of
`prepareLeftSideOrder` returns) while the right plan is valid,
option-funded, with ample collateral balance and zero exposure — every
right-side guard passes — yet `processDeposits` issues no deposit at all:
both sides are skipped, not just the failed one. -/
theorem processDeposits_invalid_width_not_local :
    processDeposits 100 1 0 0 leftSpecsInvalidWidth rightSpecsOptionFunded = (false, false) ∧
      rightSpecsOptionFunded.isValidWidth = true ∧
      rightSpecsOptionFunded.usesOptions = true ∧
      (0 : ℚ) < 1 := by
  refine ⟨?_, by simp [rightSpecsOptionFunded], by simp [rightSpecsOptionFunded], by norm_num⟩
  norm_num [processDeposits, leftSpecsInvalidWidth, rightSpecsOptionFunded]

/-- C5 (amended): if either side of the pair of plans has
`isValidWidth = false`, `processDeposits` skips both sides of that
instrument (recovery stays local to the instrument, but not to the side). -/
theorem processDeposits_invalid_width_skips_both
    (collateralBalance maxExposure longBalance shortBalance : ℚ)
    (left right : RangeOrderSpecs)
    (h : left.isValidWidth = false ∨ right.isValidWidth = false) :
    processDeposits collateralBalance maxExposure longBalance shortBalance left right =
      (false, false) := by
  rcases h with h | h <;> simp [processDeposits, h]

/-- Witness for the amended C5 at a concrete input. -/
theorem processDeposits_invalid_width_skips_both_witness :
    processDeposits 7 2 1 1 leftSpecsInvalidWidth rightSpecsOptionFunded = (false, false) :=
  processDeposits_invalid_width_skips_both 7 2 1 1 leftSpecsInvalidWidth rightSpecsOptionFunded
    (Or.inl rfl)

/-! ## Claim C6: insufficient collateral skip policy -/

/-- C6: when the collateral balance is below the sum of the two sides
requirements (with both widths valid, both exposure guards passing, and no
minimum-price trigger): if both requirements are positive neither side is
deposited; if exactly one requirement is positive and the other side is
option-funded, only the collateral-requiring side is skipped and the
option-funded side still deposits. -/
theorem processDeposits_insufficient_collateral
    (collateralBalance maxExposure longBalance shortBalance : ℚ)
    (left right : RangeOrderSpecs)
    (hins : collateralBalance < right.collateralAmount + left.collateralAmount)
    (hlw : left.isValidWidth = true) (hrw : right.isValidWidth = true)
    (hse : shortBalance < maxExposure) (hle : longBalance < maxExposure)
    (hmp : left.minOptionPriceTriggered = false) :
    (0 < right.collateralAmount ∧ 0 < left.collateralAmount →
      processDeposits collateralBalance maxExposure longBalance shortBalance left right =
        (false, false)) ∧
    (0 < right.collateralAmount ∧ left.collateralAmount = 0 ∧
        right.usesOptions = false ∧ left.usesOptions = true →
      processDeposits collateralBalance maxExposure longBalance shortBalance left right =
        (false, true)) ∧
    (0 < left.collateralAmount ∧ right.collateralAmount = 0 ∧
        left.usesOptions = false ∧ right.usesOptions = true →
      processDeposits collateralBalance maxExposure longBalance shortBalance left right =
        (true, false)) := by
  have hsuff : decide (collateralBalance ≥ right.collateralAmount + left.collateralAmount)
      = false := by
    simp [not_le.mpr hins]
  refine ⟨?_, ?_, ?_⟩
  · rintro ⟨hr, hl⟩
    simp [processDeposits, hsuff, hr, hl]
  · rintro ⟨hr, hl0, hru, hlu⟩
    have hins2 : ¬(right.collateralAmount + left.collateralAmount ≤ collateralBalance) :=
      not_le.mpr hins
    have hins3 : ¬(right.collateralAmount ≤ collateralBalance) := by
      rw [hl0, add_zero] at hins2
      exact hins2
    simp [processDeposits, hins2, hins3, hr, hl0, hru, hlu, hmp, hlw, hrw,
      not_le.mpr hse, not_le.mpr hle]
  · rintro ⟨hl, hr0, hlu, hru⟩
    have hins2 : ¬(right.collateralAmount + left.collateralAmount ≤ collateralBalance) :=
      not_le.mpr hins
    have hins3 : ¬(left.collateralAmount ≤ collateralBalance) := by
      rw [hr0, zero_add] at hins2
      exact hins2
    simp [processDeposits, hins2, hins3, hl, hr0, hru, hlu, hmp, hlw, hrw,
      not_le.mpr hse, not_le.mpr hle]

/-- Witness for C6: with balance 1 below the required 2 + 0, the
collateral-requiring right side is skipped while the option-funded left
side deposits. -/
theorem processDeposits_insufficient_collateral_witness :
    (0 < rightSpecsCollateralFunded.collateralAmount ∧
        0 < leftSpecsOptionFunded.collateralAmount →
      processDeposits 1 5 0 0 leftSpecsOptionFunded rightSpecsCollateralFunded =
        (false, false)) ∧
    (0 < rightSpecsCollateralFunded.collateralAmount ∧
        leftSpecsOptionFunded.collateralAmount = 0 ∧
        rightSpecsCollateralFunded.usesOptions = false ∧
        leftSpecsOptionFunded.usesOptions = true →
      processDeposits 1 5 0 0 leftSpecsOptionFunded rightSpecsCollateralFunded =
        (false, true)) ∧
    (0 < leftSpecsOptionFunded.collateralAmount ∧
        rightSpecsCollateralFunded.collateralAmount = 0 ∧
        leftSpecsOptionFunded.usesOptions = false ∧
        rightSpecsCollateralFunded.usesOptions = true →
      processDeposits 1 5 0 0 leftSpecsOptionFunded rightSpecsCollateralFunded =
        (true, false)) :=
  processDeposits_insufficient_collateral 1 5 0 0
    leftSpecsOptionFunded rightSpecsCollateralFunded
    (by norm_num [rightSpecsCollateralFunded, leftSpecsOptionFunded])
    rfl rfl (by norm_num) (by norm_num) rfl

/-! ## Generic list helpers -/

/-- Reading a list after a point update. -/
theorem get?_set' {α : Type} (l : List α) (i j : ℕ) (a : α) :
    (l.set i a).get? j = if j = i then (l.get? j).map (fun _ => a) else l.get? j := by
  by_cases h : j = i
  · subst h
    simp only [List.get?_eq_getElem?, List.getElem?_set_self', if_pos rfl]
    rfl
  · have h2 : i ≠ j := fun hh => h hh.symm
    simp [List.get?_eq_getElem?, List.getElem?_set_ne h2, h]

/-- The cons unfolding of findIdx? in accumulator-free form. -/
theorem findIdx?_cons_map {α : Type} (p : α → Bool) (a : α) (l : List α) :
    (a :: l).findIdx? p = if p a then some 0 else (l.findIdx? p).map (· + 1) := by
  simp [List.findIdx?_cons]

/-- A successful findIdx? points at an element satisfying the predicate. -/
theorem findIdx?_get {α : Type} {p : α → Bool} :
    ∀ {l : List α} {i : ℕ}, l.findIdx? p = some i → ∃ a, l.get? i = some a ∧ p a = true := by
  intro l
  induction l with
  | nil => intro i h; simp at h
  | cons a t ih =>
    intro i h
    rw [findIdx?_cons_map] at h
    by_cases hpa : p a
    · rw [if_pos hpa] at h
      have h0 : (0 : ℕ) = i := by injection h
      subst h0
      exact ⟨a, rfl, hpa⟩
    · rw [if_neg hpa] at h
      cases hft : t.findIdx? p with
      | none => rw [hft] at h; simp at h
      | some k =>
        rw [hft] at h
        simp only [Option.map_some'] at h
        have hk : k + 1 = i := by injection h
        subst hk
        obtain ⟨b, hb, hpb⟩ := ih hft
        exact ⟨b, by simpa using hb, hpb⟩

/-- findIdx? only depends on the pointwise predicate values. -/
theorem findIdx?_congr {α β : Type} (p : α → Bool) (q : β → Bool) :
    ∀ (l1 : List α) (l2 : List β), l1.length = l2.length →
      (∀ m a b, l1.get? m = some a → l2.get? m = some b → p a = q b) →
      l1.findIdx? p = l2.findIdx? q := by
  intro l1
  induction l1 with
  | nil =>
    intro l2 hlen _
    cases l2 with
    | nil => simp
    | cons b t2 => simp at hlen
  | cons a t1 ih =>
    intro l2 hlen hpt
    cases l2 with
    | nil => simp at hlen
    | cons b t2 =>
      have hab : p a = q b := hpt 0 a b rfl rfl
      have hlen2 : t1.length = t2.length := by simpa using hlen
      have hpt2 : ∀ m a' b', t1.get? m = some a' → t2.get? m = some b' → p a' = q b' := by
        intro m a' b' h1 h2
        exact hpt (m + 1) a' b' (by simpa using h1) (by simpa using h2)
      rw [findIdx?_cons_map, findIdx?_cons_map, hab, ih t2 hlen2 hpt2]

/-- When exactly one index satisfies the predicate, findIdx? returns it. -/
theorem findIdx?_unique {α : Type} {p : α → Bool} :
    ∀ {l : List α} {i : ℕ} {a : α}, l.get? i = some a → p a = true →
      (∀ m b, l.get? m = some b → p b = true → m = i) → l.findIdx? p = some i := by
  intro l
  induction l with
  | nil => intro i a hga _ _; simp at hga
  | cons c t ih =>
    intro i a hga hpa huniq
    rw [findIdx?_cons_map]
    by_cases hpc : p c
    · have h0 : (0 : ℕ) = i := huniq 0 c rfl hpc
      rw [if_pos hpc, h0]
    · rw [if_neg hpc]
      cases i with
      | zero =>
        simp only [List.get?_cons_zero] at hga
        have hca : c = a := by injection hga
        rw [hca] at hpc
        exact absurd hpa hpc
      | succ i' =>
        simp only [List.get?_cons_succ] at hga
        have huniq' : ∀ m b, t.get? m = some b → p b = true → m = i' := by
          intro m b hgb hpb
          have := huniq (m + 1) b (by simpa using hgb) hpb
          omega
        rw [ih hga hpa huniq']
        simp

/-- takeWhile keeps going across an element satisfying the predicate. -/
theorem takeWhile_cons_pos {α : Type} (p : α → Bool) (a : α) (l : List α)
    (h : p a = true) : (a :: l).takeWhile p = a :: l.takeWhile p := by
  simp [List.takeWhile_cons, h]

/-- Members of a takeWhile prefix sitting before a failing member of a
strictly sorted list are strictly below it. -/
theorem takeWhile_lt_of_sorted {l : List ℕ} {p : ℕ → Bool} {i : ℕ}
    (hsort : l.Pairwise (· < ·)) (hmem : i ∈ l) (hpi : p i = false) :
    ∀ x ∈ l.takeWhile p, x < i := by
  induction l with
  | nil => simp at hmem
  | cons a t ih =>
    cases hpa : p a with
    | false =>
      intro x hx
      rw [List.takeWhile_cons_of_neg (by simp [hpa])] at hx
      simp at hx
    | true =>
      have hia : i ≠ a := by
        intro h; subst h; rw [hpa] at hpi; exact absurd hpi (by simp)
      have hit : i ∈ t := by
        rcases List.mem_cons.mp hmem with h | h
        · exact absurd h hia
        · exact h
      intro x hx
      rw [List.takeWhile_cons_of_pos (by simp [hpa])] at hx
      rcases List.mem_cons.mp hx with hxa | hxt
      · subst hxa
        exact (List.pairwise_cons.mp hsort).1 i hit
      · exact ih (List.pairwise_cons.mp hsort).2 hit x hxt

theorem WFEvol.selfWF (l : List OptionParams) : WFEvol l l :=
  ⟨Eq.refl _, fun _ => Or.inl (Eq.refl _)⟩

theorem WFEvol.transWF {l1 l2 l3 : List OptionParams}
    (h12 : WFEvol l1 l2) (h23 : WFEvol l2 l3) : WFEvol l1 l3 := by
  refine ⟨h12.1.trans h23.1, fun m => ?_⟩
  rcases h23.2 m with h | ⟨o2, ho2, ho3⟩
  · rcases h12.2 m with h' | ⟨o1, ho1, ho2'⟩
    · exact Or.inl (h.trans h')
    · exact Or.inr ⟨o1, ho1, h.trans ho2'⟩
  · rcases h12.2 m with h' | ⟨o1, ho1, ho2'⟩
    · refine Or.inr ⟨o2, ?_, ho3⟩
      rw [← h']
      exact ho2
    · have ho : setWF o1 = o2 := by
        rw [ho2'] at ho2
        injection ho2
      refine Or.inr ⟨o1, ho1, ?_⟩
      rw [ho3, ← ho]
      rfl

/-- An entry whose withdrawFailure flag is set keeps it across a withdraw
pass. -/
theorem WFEvol.keep_true {l1 l2 : List OptionParams} {i : ℕ} {o : OptionParams}
    (h : WFEvol l1 l2) (h1 : l1.get? i = some o) (hwf : o.withdrawFailure = true) :
    ∃ o2, l2.get? i = some o2 ∧ o2.withdrawFailure = true := by
  rcases h.2 i with h2 | ⟨o', ho', h2⟩
  · exact ⟨o, h2.trans h1, hwf⟩
  · have ho : o = o' := by rw [h1] at ho'; injection ho'
    subst ho
    exact ⟨setWF o, h2, Eq.refl _⟩

/-- Identity fields and the oracle and cycle flags of every entry survive a
withdraw pass. -/
theorem WFEvol.fields {l1 l2 : List OptionParams} {i : ℕ} {o : OptionParams}
    (h : WFEvol l1 l2) (h1 : l1.get? i = some o) :
    ∃ o2, l2.get? i = some o2 ∧ keyOf o2 = keyOf o ∧
      o2.ivOracleFailure = o.ivOracleFailure ∧ o2.spotOracleFailure = o.spotOracleFailure ∧
      o2.cycleOrders = o.cycleOrders := by
  rcases h.2 i with h2 | ⟨o', ho', h2⟩
  · exact ⟨o, h2.trans h1, Eq.refl _, Eq.refl _, Eq.refl _, Eq.refl _⟩
  · have ho : o = o' := by rw [h1] at ho'; injection ho'
    subst ho
    exact ⟨setWF o, h2, Eq.refl _, Eq.refl _, Eq.refl _, Eq.refl _⟩

/-- The position-match lookup is stable across a withdraw pass. -/
theorem WFEvol.findIdx_pos {l1 l2 : List OptionParams} (h : WFEvol l1 l2) (p : Position) :
    l2.findIdx? (fun o => optionMatchesPosition o p) =
      l1.findIdx? (fun o => optionMatchesPosition o p) := by
  refine findIdx?_congr _ _ l2 l1 h.1.symm ?_
  intro m a b h2 h1
  rcases h.2 m with he | ⟨o, ho1, ho2⟩
  · rw [he, h1] at h2
    have : b = a := by injection h2
    rw [this]
  · rw [ho1] at h1
    rw [ho2] at h2
    have hb : o = b := by injection h1
    have ha : setWF o = a := by injection h2
    rw [← hb, ← ha]
    rfl

/-! ## Withdraw-pass lemmas (claim C2, flag setting) -/

/-- Reading the option list after a point setWF update. -/
theorem setWithdrawFailureAt_get? (l : List OptionParams) (i m : ℕ) :
    (setWithdrawFailureAt l i).get? m =
      if m = i then (l.get? m).map setWF else l.get? m := by
  unfold setWithdrawFailureAt
  cases hgi : l.get? i with
  | none =>
    by_cases h : m = i
    · subst h; rw [hgi]; simp
    · simp [h]
  | some o =>
    rw [get?_set']
    by_cases h : m = i
    · subst h
      rw [if_pos (Eq.refl _), if_pos (Eq.refl _), hgi]
      rfl
    · rw [if_neg h, if_neg h]

/-- One withdraw step only evolves the option list by setting flags. -/
theorem withdrawStep_evol {env : WithdrawEnv} {st : BotState} {p : Position} {st2 : BotState}
    (h : withdrawStep env st p = .ok st2) : WFEvol st.optionParams st2.optionParams := by
  unfold withdrawStep at h
  cases hchk : checkWithdrawStatus st.optionParams p with
  | error e => rw [hchk] at h; simp at h
  | ok b =>
    rw [hchk] at h
    cases b with
    | false =>
      have : st = st2 := by injection h
      rw [← this]
      exact WFEvol.selfWF _
    | true =>
      by_cases hz : env.lpTokenBalance p = 0
      · rw [if_pos hz] at h
        have h2 : ({ st with lpRangeOrders :=
            st.lpRangeOrders.filter (fun ro => decide (ro ≠ p)) } : BotState) = st2 := by
          injection h
        rw [← h2]
        exact WFEvol.selfWF _
      · rw [if_neg hz] at h
        by_cases hw : env.withdrawOk p = true
        · rw [if_pos hw] at h
          have h2 : ({ st with lpRangeOrders :=
              st.lpRangeOrders.filter (fun ro => decide (ro ≠ p)) } : BotState) = st2 := by
            injection h
          rw [← h2]
          exact WFEvol.selfWF _
        · rw [if_neg hw] at h
          cases hfi : st.optionParams.findIdx? (fun o => optionMatchesPosition o p) with
          | none => rw [hfi] at h; simp at h
          | some i =>
            rw [hfi] at h
            have h2 : ({ st with optionParams :=
                setWithdrawFailureAt st.optionParams i } : BotState) = st2 := by
              injection h
            rw [← h2]
            refine ⟨?_, fun m => ?_⟩
            · show st.optionParams.length = (setWithdrawFailureAt st.optionParams i).length
              unfold setWithdrawFailureAt
              cases st.optionParams.get? i <;> simp
            · show (setWithdrawFailureAt st.optionParams i).get? m = _ ∨ _
              rw [setWithdrawFailureAt_get?]
              by_cases hm : m = i
              · subst hm
                rw [if_pos (Eq.refl _)]
                cases hgm : st.optionParams.get? m with
                | none => exact Or.inl (Eq.refl _)
                | some o => exact Or.inr ⟨o, Eq.refl _, Eq.refl _⟩
              · rw [if_neg hm]; exact Or.inl (Eq.refl _)

/-- The withdraw loop only evolves the option list by setting flags. -/
theorem withdrawLoop_evol {env : WithdrawEnv} :
    ∀ {l : List Position} {st st2 : BotState}, withdrawLoop env l st = .ok st2 →
      WFEvol st.optionParams st2.optionParams := by
  intro l
  induction l with
  | nil =>
    intro st st2 h
    have : st = st2 := by
      unfold withdrawLoop at h
      injection h
    rw [← this]
    exact WFEvol.selfWF _
  | cons p rest ih =>
    intro st st2 h
    unfold withdrawLoop at h
    cases hstep : withdrawStep env st p with
    | error e => rw [hstep] at h; simp at h
    | ok st1 =>
      rw [hstep] at h
      exact WFEvol.transWF (withdrawStep_evol hstep) (ih h)

/-- Bridge from get? facts to getElem? facts (simp normalises to the
latter). -/
theorem getElem?_of_get? {α : Type} {l : List α} {i : ℕ} {a : α}
    (h : l.get? i = some a) : l[i]? = some a := by
  rw [← List.get?_eq_getElem?]
  exact h

/-- Bridge from a get? miss to a getElem? miss. -/
theorem getElem?_none_of_get? {α : Type} {l : List α} {i : ℕ}
    (h : l.get? i = none) : l[i]? = none := by
  rw [← List.get?_eq_getElem?]
  exact h

/-- The withdrawable check passes for a position whose option record has an
oracle-failure flag or cycleOrders set. -/
theorem checkWithdrawStatus_true {st : BotState} {p : Position} {i : ℕ}
    (hidx : st.optionParams.findIdx? (fun o => optionMatchesPosition o p) = some i)
    {o : OptionParams} (hgo : st.optionParams.get? i = some o)
    (hflags : (o.ivOracleFailure || o.spotOracleFailure || o.cycleOrders) = true) :
    checkWithdrawStatus st.optionParams p = .ok true := by
  cases hiv : (o.ivOracleFailure || o.spotOracleFailure) with
  | true =>
    rcases Bool.or_eq_true_iff.mp hiv with h | h <;>
      simp [checkWithdrawStatus, hidx, getElem?_of_get? hgo, h]
  | false =>
    have hcyc : o.cycleOrders = true := by
      rcases Bool.or_eq_true_iff.mp hflags with h | h
      · rcases Bool.or_eq_true_iff.mp h with h' | h'
        · rw [h'] at hiv; simp at hiv
        · rw [h'] at hiv; simp at hiv
      · exact h
    have hiv1 : o.ivOracleFailure = false := by
      rcases Bool.or_eq_false_iff.mp hiv with ⟨h1, h2⟩
      exact h1
    have hiv2 : o.spotOracleFailure = false := by
      rcases Bool.or_eq_false_iff.mp hiv with ⟨h1, h2⟩
      exact h2
    simp [checkWithdrawStatus, hidx, getElem?_of_get? hgo, hiv1, hiv2, hcyc]

/-- If a position whose withdraw is due fails its withdraw attempt, the
completed withdraw loop leaves the matching option record with
withdrawFailure set. -/
theorem withdrawLoop_sets_flag {env : WithdrawEnv} :
    ∀ {l : List Position} {st st2 : BotState} {p : Position} {i : ℕ},
      p ∈ l →
      st.optionParams.findIdx? (fun o => optionMatchesPosition o p) = some i →
      (∃ o, st.optionParams.get? i = some o ∧
        (o.ivOracleFailure || o.spotOracleFailure || o.cycleOrders) = true) →
      env.lpTokenBalance p ≠ 0 →
      env.withdrawOk p = false →
      withdrawLoop env l st = .ok st2 →
      ∃ o2, st2.optionParams.get? i = some o2 ∧ o2.withdrawFailure = true := by
  intro l
  induction l with
  | nil => intro st st2 p i hmem; simp at hmem
  | cons q rest ih =>
    intro st st2 p i hmem hidx hcond hbal hfail hok
    unfold withdrawLoop at hok
    cases hstep : withdrawStep env st q with
    | error e => rw [hstep] at hok; simp at hok
    | ok st1 =>
      rw [hstep] at hok
      rcases List.mem_cons.mp hmem with hpq | hprest
      · -- the failing position is processed by this step
        subst hpq
        obtain ⟨o, hgo, hflags⟩ := hcond
        have hchk := checkWithdrawStatus_true hidx hgo hflags
        unfold withdrawStep at hstep
        rw [hchk, if_neg hbal, hfail] at hstep
        rw [if_neg (by simp)] at hstep
        rw [hidx] at hstep
        have hst1 : ({ st with optionParams :=
            setWithdrawFailureAt st.optionParams i } : BotState) = st1 := by
          injection hstep
        have hg1 : st1.optionParams.get? i = some (setWF o) := by
          rw [← hst1]
          show (setWithdrawFailureAt st.optionParams i).get? i = some (setWF o)
          rw [setWithdrawFailureAt_get?, if_pos (Eq.refl _), hgo]
          rfl
        exact (withdrawLoop_evol hok).keep_true hg1 (Eq.refl _)
      · -- the failing position comes later; transport the hypotheses
        have hevol := withdrawStep_evol hstep
        have hidx1 : st1.optionParams.findIdx? (fun o => optionMatchesPosition o p)
            = some i := (hevol.findIdx_pos p).trans hidx
        obtain ⟨o, hgo, hflags⟩ := hcond
        obtain ⟨o2, hgo2, _, hiv, hspot, hcyc⟩ := hevol.fields hgo
        have hcond1 : ∃ o', st1.optionParams.get? i = some o' ∧
            (o'.ivOracleFailure || o'.spotOracleFailure || o'.cycleOrders) = true :=
          ⟨o2, hgo2, by rw [hiv, hspot, hcyc]; exact hflags⟩
        exact ih hprest hidx1 hcond1 hbal hfail hok

/-- Part of claim C2: after a completed withdraw pass in which the due
withdraw of a tracked position failed, the matching option record has
withdrawFailure set. -/
theorem withdrawSettleLiquidity_sets_flag
    {st : BotState} {market : String} {env : WithdrawEnv} {st2 : BotState}
    {p : Position} {i : ℕ}
    (hp : p ∈ st.lpRangeOrders) (hpm : p.market = market)
    (hidx : st.optionParams.findIdx? (fun o => optionMatchesPosition o p) = some i)
    (hcond : ∃ o, st.optionParams.get? i = some o ∧
      (o.ivOracleFailure || o.spotOracleFailure || o.cycleOrders) = true)
    (hbal : env.lpTokenBalance p ≠ 0)
    (hfail : env.withdrawOk p = false)
    (hok : withdrawSettleLiquidity st market env = .ok st2) :
    ∃ o2, st2.optionParams.get? i = some o2 ∧ o2.withdrawFailure = true := by
  obtain ⟨a, hga, hmatch⟩ := findIdx?_get hidx
  have hakey : keyOf a = posKeyOf p := of_decide_eq_true hmatch
  have hamarket : a.market = market := by
    have : a.market = p.market := congrArg (fun t => t.1) hakey
    rw [this, hpm]
  unfold withdrawSettleLiquidity at hok
  cases hie : (st.optionParams.filter (fun o => decide (o.market = market))).isEmpty with
  | true =>
    have hnil := List.isEmpty_iff.mp hie
    have hmem : a ∈ st.optionParams.filter (fun o => decide (o.market = market)) :=
      List.mem_filter.mpr ⟨List.get?_mem hga, decide_eq_true hamarket⟩
    rw [hnil] at hmem
    simp at hmem
  | false =>
    rw [hie] at hok
    simp only [Bool.false_eq_true, if_false] at hok
    have hmem : p ∈ st.lpRangeOrders.filter (fun ro => decide (ro.market = market)) :=
      List.mem_filter.mpr ⟨hp, decide_eq_true hpm⟩
    exact withdrawLoop_sets_flag hmem hidx hcond hbal hfail hok

/-! ## Deposit-pass step lemmas

One rewrite lemma per branch of the loop body, so the later inductions can
follow the control flow of the source directly. -/

theorem depositLoop_nil (minD maxD maxE : ℚ) (env : ℕ → DepositEnvData)
    (st : BotState) (evs : List DepositEvent) :
    depositLoop minD maxD maxE env [] st evs = (evs, .ok st) := rfl

theorem depositLoop_cons_none {minD maxD maxE : ℚ} {env : ℕ → DepositEnvData}
    {i : ℕ} {rest : List ℕ} {st : BotState} {evs : List DepositEvent}
    (hgi : st.optionParams.get? i = none) :
    depositLoop minD maxD maxE env (i :: rest) st evs = (evs, .ok st) := by
  simp [depositLoop, getElem?_none_of_get? hgi]

theorem depositLoop_cons_flagged {minD maxD maxE : ℚ} {env : ℕ → DepositEnvData}
    {i : ℕ} {rest : List ℕ} {st : BotState} {evs : List DepositEvent} {op : OptionParams}
    (hgi : st.optionParams.get? i = some op)
    (hflag : (op.ivOracleFailure || op.spotOracleFailure) = true) :
    depositLoop minD maxD maxE env (i :: rest) st evs = (evs, .ok st) := by
  simp [depositLoop, getElem?_of_get? hgi, hflag]

theorem depositLoop_cons_nocycle {minD maxD maxE : ℚ} {env : ℕ → DepositEnvData}
    {i : ℕ} {rest : List ℕ} {st : BotState} {evs : List DepositEvent} {op : OptionParams}
    (hgi : st.optionParams.get? i = some op)
    (hflag : (op.ivOracleFailure || op.spotOracleFailure) = false)
    (hcyc : op.cycleOrders = false) :
    depositLoop minD maxD maxE env (i :: rest) st evs =
      depositLoop minD maxD maxE env rest st evs := by
  simp [depositLoop, getElem?_of_get? hgi, hflag, hcyc]

theorem depositLoop_cons_delta {minD maxD maxE : ℚ} {env : ℕ → DepositEnvData}
    {i : ℕ} {rest : List ℕ} {st : BotState} {evs : List DepositEvent} {op : OptionParams}
    (hgi : st.optionParams.get? i = some op)
    (hflag : (op.ivOracleFailure || op.spotOracleFailure) = false)
    (hcyc : op.cycleOrders = true)
    (hdelta : (jsAbsGt op.delta maxD || jsAbsLt op.delta minD) = true) :
    depositLoop minD maxD maxE env (i :: rest) st evs =
      depositLoop minD maxD maxE env rest st evs := by
  simp [depositLoop, getElem?_of_get? hgi, hflag, hcyc, hdelta]

theorem depositLoop_cons_nopool {minD maxD maxE : ℚ} {env : ℕ → DepositEnvData}
    {i : ℕ} {rest : List ℕ} {st : BotState} {evs : List DepositEvent} {op : OptionParams}
    (hgi : st.optionParams.get? i = some op)
    (hflag : (op.ivOracleFailure || op.spotOracleFailure) = false)
    (hcyc : op.cycleOrders = true)
    (hdelta : (jsAbsGt op.delta maxD || jsAbsLt op.delta minD) = false)
    (hpool : (env i).poolAvailable = false) :
    depositLoop minD maxD maxE env (i :: rest) st evs =
      depositLoop minD maxD maxE env rest st evs := by
  simp [depositLoop, getElem?_of_get? hgi, hflag, hcyc, hdelta, hpool]

theorem depositLoop_cons_noidx {minD maxD maxE : ℚ} {env : ℕ → DepositEnvData}
    {i : ℕ} {rest : List ℕ} {st : BotState} {evs : List DepositEvent} {op : OptionParams}
    (hgi : st.optionParams.get? i = some op)
    (hflag : (op.ivOracleFailure || op.spotOracleFailure) = false)
    (hcyc : op.cycleOrders = true)
    (hdelta : (jsAbsGt op.delta maxD || jsAbsLt op.delta minD) = false)
    (hpool : (env i).poolAvailable = true)
    (hfi : st.optionParams.findIdx? (fun o => optionMatchesIdentity o op) = none) :
    depositLoop minD maxD maxE env (i :: rest) st evs =
      (evs, .error "lpRangeOrder was not traceable in state.optionParams") := by
  simp [depositLoop, getElem?_of_get? hgi, hflag, hcyc, hdelta, hpool, hfi]

theorem bodyEvent_idx (maxE : ℚ) (env : ℕ → DepositEnvData) (i : ℕ) (oj : OptionParams) :
    (bodyEvent maxE env i oj).idx = i := rfl

theorem depositLoop_cons_body {minD maxD maxE : ℚ} {env : ℕ → DepositEnvData}
    {i : ℕ} {rest : List ℕ} {st : BotState} {evs : List DepositEvent}
    {op oj : OptionParams} {j : ℕ}
    (hgi : st.optionParams.get? i = some op)
    (hflag : (op.ivOracleFailure || op.spotOracleFailure) = false)
    (hcyc : op.cycleOrders = true)
    (hdelta : (jsAbsGt op.delta maxD || jsAbsLt op.delta minD) = false)
    (hpool : (env i).poolAvailable = true)
    (hfi : st.optionParams.findIdx? (fun o => optionMatchesIdentity o op) = some j)
    (hgj : st.optionParams.get? j = some oj) :
    depositLoop minD maxD maxE env (i :: rest) st evs =
      depositLoop minD maxD maxE env rest
        { st with optionParams := clearCycleAt st.optionParams j }
        (evs ++ [bodyEvent maxE env i oj]) := by
  simp [depositLoop, bodyEvent, getElem?_of_get? hgi, hflag, hcyc, hdelta, hpool, hfi,
    getElem?_of_get? hgj]

theorem depositLoop_cons_noj {minD maxD maxE : ℚ} {env : ℕ → DepositEnvData}
    {i : ℕ} {rest : List ℕ} {st : BotState} {evs : List DepositEvent}
    {op : OptionParams} {j : ℕ}
    (hgi : st.optionParams.get? i = some op)
    (hflag : (op.ivOracleFailure || op.spotOracleFailure) = false)
    (hcyc : op.cycleOrders = true)
    (hdelta : (jsAbsGt op.delta maxD || jsAbsLt op.delta minD) = false)
    (hpool : (env i).poolAvailable = true)
    (hfi : st.optionParams.findIdx? (fun o => optionMatchesIdentity o op) = some j)
    (hgj : st.optionParams.get? j = none) :
    depositLoop minD maxD maxE env (i :: rest) st evs =
      (evs, .error "lpRangeOrder was not traceable in state.optionParams") := by
  simp [depositLoop, getElem?_of_get? hgi, hflag, hcyc, hdelta, hpool, hfi,
    getElem?_none_of_get? hgj]

/-! ## Evolution across the deposit pass -/

/-- Reading the option list after a point clearCW update. -/
theorem clearCycleAt_get? (l : List OptionParams) (i m : ℕ) :
    (clearCycleAt l i).get? m =
      if m = i then (l.get? m).map clearCW else l.get? m := by
  unfold clearCycleAt
  cases hgi : l.get? i with
  | none =>
    by_cases h : m = i
    · subst h; rw [hgi]; simp
    · simp [h]
  | some o =>
    rw [get?_set']
    by_cases h : m = i
    · subst h
      rw [if_pos (Eq.refl _), if_pos (Eq.refl _), hgi]
      rfl
    · rw [if_neg h, if_neg h]

theorem CWEvol.selfCW (l : List OptionParams) : CWEvol l l :=
  ⟨Eq.refl _, fun _ => Or.inl (Eq.refl _)⟩

theorem CWEvol.transCW {l1 l2 l3 : List OptionParams}
    (h12 : CWEvol l1 l2) (h23 : CWEvol l2 l3) : CWEvol l1 l3 := by
  refine ⟨h12.1.trans h23.1, fun m => ?_⟩
  rcases h23.2 m with h | ⟨o2, ho2, ho3⟩
  · rcases h12.2 m with h' | ⟨o1, ho1, ho2'⟩
    · exact Or.inl (h.trans h')
    · exact Or.inr ⟨o1, ho1, h.trans ho2'⟩
  · rcases h12.2 m with h' | ⟨o1, ho1, ho2'⟩
    · refine Or.inr ⟨o2, ?_, ho3⟩
      rw [← h']
      exact ho2
    · have ho : clearCW o1 = o2 := by
        rw [ho2'] at ho2
        injection ho2
      refine Or.inr ⟨o1, ho1, ?_⟩
      rw [ho3, ← ho]
      rfl

/-- One clearCycleAt update is a deposit-pass evolution step. -/
theorem clearCycleAt_evol (l : List OptionParams) (j : ℕ) : CWEvol l (clearCycleAt l j) := by
  refine ⟨?_, fun m => ?_⟩
  · unfold clearCycleAt
    cases l.get? j <;> simp
  · rw [clearCycleAt_get?]
    by_cases hm : m = j
    · subst hm
      rw [if_pos (Eq.refl _)]
      cases l.get? m with
      | none => exact Or.inl (Eq.refl _)
      | some o => exact Or.inr ⟨o, Eq.refl _, Eq.refl _⟩
    · rw [if_neg hm]; exact Or.inl (Eq.refl _)

/-- Oracle flags are untouched by the deposit pass. -/
theorem CWEvol.oracle {l1 l2 : List OptionParams} (h : CWEvol l1 l2) (m : ℕ) :
    oracleFlaggedAt l2 m = oracleFlaggedAt l1 m := by
  unfold oracleFlaggedAt
  rcases h.2 m with he | ⟨o, h1, h2⟩
  · rw [he]
  · rw [h1, h2]; rfl

/-- Identity keys are untouched by the deposit pass. -/
theorem CWEvol.keyAt_eq {l1 l2 : List OptionParams} (h : CWEvol l1 l2) (m : ℕ) :
    keyAt l2 m = keyAt l1 m := by
  unfold keyAt
  rcases h.2 m with he | ⟨o, h1, h2⟩
  · rw [he]
  · rw [h1, h2]; rfl

/-- A cleared withdrawFailure flag stays cleared across the deposit pass. -/
theorem CWEvol.keep_false {l1 l2 : List OptionParams} {i : ℕ} {o : OptionParams}
    (h : CWEvol l1 l2) (h1 : l1.get? i = some o) (hwf : o.withdrawFailure = false) :
    ∃ o2, l2.get? i = some o2 ∧ o2.withdrawFailure = false := by
  rcases h.2 i with h2 | ⟨o', ho', h2⟩
  · exact ⟨o, h2.trans h1, hwf⟩
  · have ho : o = o' := by rw [h1] at ho'; injection ho'
    subst ho
    exact ⟨clearCW o, h2, Eq.refl _⟩

/-- The deposit loop only evolves the option list by clearing flags. -/
theorem depositLoop_evol (minD maxD maxE : ℚ) (env : ℕ → DepositEnvData) :
    ∀ (idxs : List ℕ) (st : BotState) (evs : List DepositEvent) {st2 : BotState},
      (depositLoop minD maxD maxE env idxs st evs).2 = .ok st2 →
      CWEvol st.optionParams st2.optionParams := by
  intro idxs
  induction idxs with
  | nil =>
    intro st evs st2 h
    rw [depositLoop_nil] at h
    have h2 : Except.ok st = Except.ok st2 := h
    have h3 : st = st2 := by injection h2
    rw [← h3]
    exact CWEvol.selfCW _
  | cons i rest ih =>
    intro st evs st2 h
    cases hgi : st.optionParams.get? i with
    | none =>
      rw [depositLoop_cons_none hgi] at h
      have h2 : Except.ok st = Except.ok st2 := h
      have h3 : st = st2 := by injection h2
      rw [← h3]
      exact CWEvol.selfCW _
    | some op =>
      cases hflag : (op.ivOracleFailure || op.spotOracleFailure) with
      | true =>
        rw [depositLoop_cons_flagged hgi hflag] at h
        have h2 : Except.ok st = Except.ok st2 := h
        have h3 : st = st2 := by injection h2
        rw [← h3]
        exact CWEvol.selfCW _
      | false =>
        cases hcyc : op.cycleOrders with
        | false =>
          rw [depositLoop_cons_nocycle hgi hflag hcyc] at h
          exact ih st evs h
        | true =>
          cases hdelta : (jsAbsGt op.delta maxD || jsAbsLt op.delta minD) with
          | true =>
            rw [depositLoop_cons_delta hgi hflag hcyc hdelta] at h
            exact ih st evs h
          | false =>
            cases hpool : (env i).poolAvailable with
            | false =>
              rw [depositLoop_cons_nopool hgi hflag hcyc hdelta hpool] at h
              exact ih st evs h
            | true =>
              cases hfi : st.optionParams.findIdx? (fun o => optionMatchesIdentity o op) with
              | none =>
                rw [depositLoop_cons_noidx hgi hflag hcyc hdelta hpool hfi] at h
                have h2 : (Except.error "lpRangeOrder was not traceable in state.optionParams"
                    : Except String BotState) = Except.ok st2 := h
                simp at h2
              | some j =>
                cases hgj : st.optionParams.get? j with
                | none =>
                  rw [depositLoop_cons_noj hgi hflag hcyc hdelta hpool hfi hgj] at h
                  have h2 : (Except.error "lpRangeOrder was not traceable in state.optionParams"
                      : Except String BotState) = Except.ok st2 := h
                  simp at h2
                | some oj =>
                  rw [depositLoop_cons_body hgi hflag hcyc hdelta hpool hfi hgj] at h
                  exact CWEvol.transCW (clearCycleAt_evol _ j) (ih _ _ h)

/-- Every event produced by the deposit loop concerns an index in the
prefix of the iteration order before the first oracle-flagged instrument:
the break skips everything at and after the first flagged index. -/
theorem depositLoop_events (minD maxD maxE : ℚ) (env : ℕ → DepositEnvData) :
    ∀ (idxs : List ℕ) (st : BotState) (evs : List DepositEvent),
      ∀ ev ∈ (depositLoop minD maxD maxE env idxs st evs).1,
        ev ∈ evs ∨
          ev.idx ∈ idxs.takeWhile (fun k => !oracleFlaggedAt st.optionParams k) := by
  intro idxs
  induction idxs with
  | nil =>
    intro st evs ev hev
    rw [depositLoop_nil] at hev
    exact Or.inl hev
  | cons i rest ih =>
    intro st evs ev hev
    cases hgi : st.optionParams.get? i with
    | none =>
      rw [depositLoop_cons_none hgi] at hev
      exact Or.inl hev
    | some op =>
      cases hflag : (op.ivOracleFailure || op.spotOracleFailure) with
      | true =>
        rw [depositLoop_cons_flagged hgi hflag] at hev
        exact Or.inl hev
      | false =>
        have hpi : (fun k => !oracleFlaggedAt st.optionParams k) i = true := by
          show (!oracleFlaggedAt st.optionParams i) = true
          simp [oracleFlaggedAt, getElem?_of_get? hgi, hflag]
        rw [takeWhile_cons_pos _ i rest hpi]
        cases hcyc : op.cycleOrders with
        | false =>
          rw [depositLoop_cons_nocycle hgi hflag hcyc] at hev
          rcases ih st evs ev hev with h | h
          · exact Or.inl h
          · exact Or.inr (List.mem_cons.mpr (Or.inr h))
        | true =>
          cases hdelta : (jsAbsGt op.delta maxD || jsAbsLt op.delta minD) with
          | true =>
            rw [depositLoop_cons_delta hgi hflag hcyc hdelta] at hev
            rcases ih st evs ev hev with h | h
            · exact Or.inl h
            · exact Or.inr (List.mem_cons.mpr (Or.inr h))
          | false =>
            cases hpool : (env i).poolAvailable with
            | false =>
              rw [depositLoop_cons_nopool hgi hflag hcyc hdelta hpool] at hev
              rcases ih st evs ev hev with h | h
              · exact Or.inl h
              · exact Or.inr (List.mem_cons.mpr (Or.inr h))
            | true =>
              cases hfi : st.optionParams.findIdx?
                  (fun o => optionMatchesIdentity o op) with
              | none =>
                rw [depositLoop_cons_noidx hgi hflag hcyc hdelta hpool hfi] at hev
                exact Or.inl hev
              | some j =>
                cases hgj : st.optionParams.get? j with
                | none =>
                  rw [depositLoop_cons_noj hgi hflag hcyc hdelta hpool hfi hgj] at hev
                  exact Or.inl hev
                | some oj =>
                  rw [depositLoop_cons_body hgi hflag hcyc hdelta hpool hfi hgj] at hev
                  rcases ih _ _ ev hev with h | h
                  · rcases List.mem_append.mp h with h' | h'
                    · exact Or.inl h'
                    · have hev2 : ev = bodyEvent maxE env i oj := by simpa using h'
                      refine Or.inr ?_
                      rw [hev2, bodyEvent_idx]
                      exact List.mem_cons_self _ _
                  · have h2 : ev.idx ∈ rest.takeWhile
                        (fun k => !oracleFlaggedAt (clearCycleAt st.optionParams j) k) := h
                    have hfun : (fun k => !oracleFlaggedAt (clearCycleAt st.optionParams j) k)
                        = (fun k => !oracleFlaggedAt st.optionParams k) := by
                      funext k
                      rw [(clearCycleAt_evol st.optionParams j).oracle k]
                    rw [hfun] at h2
                    exact Or.inr (List.mem_cons.mpr (Or.inr h2))

/-- The withdrawFailure gate inside the deposit loop: while the flag of an
identity-unique instrument is set, its iteration (if reached) produces an
event with no deposits, and a completed iteration leaves the flag cleared
in the final state of a successful pass. -/
theorem depositLoop_gate (minD maxD maxE : ℚ) (env : ℕ → DepositEnvData) (i : ℕ) :
    ∀ (idxs : List ℕ) (st : BotState) (evs : List DepositEvent),
      idxs.Nodup →
      (∀ m, keyAt st.optionParams m = keyAt st.optionParams i → m = i) →
      (∃ oi, st.optionParams.get? i = some oi ∧ oi.withdrawFailure = true) →
      (∀ ev ∈ (depositLoop minD maxD maxE env idxs st evs).1,
        ev ∉ evs → ev.idx = i → ev.deposits = none) ∧
      (∀ st2, (depositLoop minD maxD maxE env idxs st evs).2 = .ok st2 →
        (∃ ev ∈ (depositLoop minD maxD maxE env idxs st evs).1, ev ∉ evs ∧ ev.idx = i) →
        ∃ o2, st2.optionParams.get? i = some o2 ∧ o2.withdrawFailure = false) := by
  intro idxs
  induction idxs with
  | nil =>
    intro st evs _ _ _
    constructor
    · intro ev hev hnin _
      rw [depositLoop_nil] at hev
      exact absurd hev hnin
    · intro st2 _ hex
      rw [depositLoop_nil] at hex
      obtain ⟨ev, hev, hnin, _⟩ := hex
      exact absurd hev hnin
  | cons k rest ih =>
    intro st evs hnd huniq hwf
    have hndr : rest.Nodup := (List.nodup_cons.mp hnd).2
    have hknr : k ∉ rest := (List.nodup_cons.mp hnd).1
    cases hgi : st.optionParams.get? k with
    | none =>
      rw [depositLoop_cons_none hgi]
      constructor
      · intro ev hev hnin _
        exact absurd hev hnin
      · intro st2 _ hex
        obtain ⟨ev, hev, hnin, _⟩ := hex
        exact absurd hev hnin
    | some op =>
      cases hflag : (op.ivOracleFailure || op.spotOracleFailure) with
      | true =>
        rw [depositLoop_cons_flagged hgi hflag]
        constructor
        · intro ev hev hnin _
          exact absurd hev hnin
        · intro st2 _ hex
          obtain ⟨ev, hev, hnin, _⟩ := hex
          exact absurd hev hnin
      | false =>
        cases hcyc : op.cycleOrders with
        | false =>
          rw [depositLoop_cons_nocycle hgi hflag hcyc]
          exact ih st evs hndr huniq hwf
        | true =>
          cases hdelta : (jsAbsGt op.delta maxD || jsAbsLt op.delta minD) with
          | true =>
            rw [depositLoop_cons_delta hgi hflag hcyc hdelta]
            exact ih st evs hndr huniq hwf
          | false =>
            cases hpool : (env k).poolAvailable with
            | false =>
              rw [depositLoop_cons_nopool hgi hflag hcyc hdelta hpool]
              exact ih st evs hndr huniq hwf
            | true =>
              cases hfi : st.optionParams.findIdx?
                  (fun o => optionMatchesIdentity o op) with
              | none =>
                rw [depositLoop_cons_noidx hgi hflag hcyc hdelta hpool hfi]
                constructor
                · intro ev hev hnin _
                  exact absurd hev hnin
                · intro st2 h2 _
                  simp at h2
              | some j =>
                cases hgj : st.optionParams.get? j with
                | none =>
                  rw [depositLoop_cons_noj hgi hflag hcyc hdelta hpool hfi hgj]
                  constructor
                  · intro ev hev hnin _
                    exact absurd hev hnin
                  · intro st2 h2 _
                    simp at h2
                | some oj =>
                  rw [depositLoop_cons_body hgi hflag hcyc hdelta hpool hfi hgj]
                  obtain ⟨a, hga, hpa⟩ := findIdx?_get hfi
                  have hoja : oj = a := by
                    rw [hgj] at hga
                    injection hga
                  rw [← hoja] at hpa
                  have hkey : keyOf oj = keyOf op := of_decide_eq_true hpa
                  obtain ⟨oi, hgoi, hwfi⟩ := hwf
                  by_cases hki : k = i
                  · -- the gated instrument itself is processed
                    subst hki
                    have hopi : op = oi := by
                      rw [hgi] at hgoi
                      injection hgoi
                    have hji : j = k := by
                      refine huniq j ?_
                      simp only [keyAt, hgj, hgi, Option.map_some']
                      rw [hkey]
                    subst hji
                    have hojop : oj = op := by
                      rw [hgi] at hgj
                      injection hgj with hh
                      exact hh.symm
                    have hwfoj : oj.withdrawFailure = true := by
                      rw [hojop, hopi]
                      exact hwfi
                    have hdep : bodyEvent maxE env j oj = { idx := j, deposits := none } := by
                      simp [bodyEvent, hwfoj]
                    rw [hdep]
                    constructor
                    · intro ev hev hnin hevi
                      by_cases heq : ev = { idx := j, deposits := none }
                      · rw [heq]
                      · have hnin2 : ev ∉ evs ++ [{ idx := j, deposits := none }] := by
                          intro hmem
                          rcases List.mem_append.mp hmem with h' | h'
                          · exact hnin h'
                          · exact heq (by simpa using h')
                        rcases depositLoop_events minD maxD maxE env rest _ _ ev hev
                          with h' | h'
                        · exact absurd h' hnin2
                        · have hin : ev.idx ∈ rest :=
                            (List.takeWhile_prefix _).sublist.subset h'
                          rw [hevi] at hin
                          exact absurd hin hknr
                    · intro st2 h2 _
                      have hg1 : (clearCycleAt st.optionParams j).get? j
                          = some (clearCW op) := by
                        rw [clearCycleAt_get?, if_pos (Eq.refl _), hgi]
                        rfl
                      have hevol := depositLoop_evol minD maxD maxE env rest _ _ h2
                      exact hevol.keep_false hg1 (Eq.refl _)
                  · -- a different instrument is processed; the gated one is untouched
                    have hji : j ≠ i := by
                      intro hj
                      refine hki (huniq k ?_)
                      rw [← hj]
                      simp only [keyAt, hgj, hgi, Option.map_some']
                      rw [hkey]
                    have hwf1 : ∃ oi2, (clearCycleAt st.optionParams j).get? i = some oi2 ∧
                        oi2.withdrawFailure = true := by
                      refine ⟨oi, ?_, hwfi⟩
                      rw [clearCycleAt_get?, if_neg (fun h => hji h.symm)]
                      exact hgoi
                    have huniq1 : ∀ m, keyAt (clearCycleAt st.optionParams j) m =
                        keyAt (clearCycleAt st.optionParams j) i → m = i := by
                      intro m hm
                      rw [(clearCycleAt_evol st.optionParams j).keyAt_eq m,
                        (clearCycleAt_evol st.optionParams j).keyAt_eq i] at hm
                      exact huniq m hm
                    have hih := ih { st with optionParams := clearCycleAt st.optionParams j }
                      (evs ++ [bodyEvent maxE env k oj]) hndr huniq1 hwf1
                    constructor
                    · intro ev hev hnin hevi
                      by_cases heq : ev ∈ evs ++ [bodyEvent maxE env k oj]
                      · rcases List.mem_append.mp heq with h' | h'
                        · exact absurd h' hnin
                        · have hevk : ev = bodyEvent maxE env k oj := by simpa using h'
                          have hevidx : ev.idx = k := by
                            rw [hevk]
                            exact bodyEvent_idx maxE env k oj
                          rw [hevi] at hevidx
                          exact absurd hevidx.symm hki
                      · exact hih.1 ev hev heq hevi
                    · intro st2 h2 hex
                      obtain ⟨ev, hev, hnin, hevi⟩ := hex
                      have hnink : ev ∉ evs ++ [bodyEvent maxE env k oj] := by
                        intro hmem
                        rcases List.mem_append.mp hmem with h' | h'
                        · exact hnin h'
                        · have hevk : ev = bodyEvent maxE env k oj := by simpa using h'
                          have hevidx : ev.idx = k := by
                            rw [hevk]
                            exact bodyEvent_idx maxE env k oj
                          rw [hevi] at hevidx
                          exact hki hevidx.symm
                      exact hih.2 st2 h2 ⟨ev, hev, hnink, hevi⟩

/-- The batch index list is duplicate-free. -/
theorem batchIndices_nodup (st : BotState) (market maturity : String) (isCall : Bool) :
    (batchIndices st market maturity isCall).Nodup :=
  (List.nodup_range _).filter _

/-- The batch index list is strictly increasing. -/
theorem batchIndices_sorted (st : BotState) (market maturity : String) (isCall : Bool) :
    (batchIndices st market maturity isCall).Pairwise (· < ·) :=
  List.Pairwise.filter _ (List.pairwise_lt_range _)

/-! ## Claim C1: oracle failure blocks the instrument's deposit -/

/-- C1: if an instrument's ivOracleFailure or spotOracleFailure flag is set
when the deposit pass runs, the pass records no deposit event for that
instrument — no deposit is attempted for it in that cycle. -/
theorem processStrikes_no_deposit_on_oracle_failure
    (minD maxD maxE : ℚ) (dte : ℤ) (env : ℕ → DepositEnvData)
    (market maturity : String) (isCall : Bool) (st : BotState) (i : ℕ)
    (hflag : oracleFlaggedAt st.optionParams i = true) :
    ∀ ev ∈ (processStrikes minD maxD maxE dte env market maturity isCall st).1,
      ev.idx ≠ i := by
  intro ev hev hcontra
  unfold processStrikes at hev
  by_cases h1 : dte ≤ 0
  · rw [if_pos h1] at hev
    simp at hev
  · rw [if_neg h1] at hev
    by_cases h2 : dte > 365
    · rw [if_pos h2] at hev
      simp at hev
    · rw [if_neg h2] at hev
      rcases depositLoop_events minD maxD maxE env _ st [] ev hev with h | h
      · simp at h
      · have h4 : (!oracleFlaggedAt st.optionParams ev.idx) = true :=
          List.mem_takeWhile_imp (p := fun k => !oracleFlaggedAt st.optionParams k) h
        rw [hcontra, hflag] at h4
        simp at h4

/-- Witness for C1: the flagged instrument at state index 1 receives no
deposit event. -/
theorem processStrikes_no_deposit_on_oracle_failure_witness :
    ((processStrikes 0 3 5 7 denvPool "WETH" "07JUN24" true stOracle).1.all
      fun ev => decide (ev.idx ≠ 1)) = true := by
  rw [List.all_eq_true]
  intro ev hev
  exact decide_eq_true (processStrikes_no_deposit_on_oracle_failure 0 3 5 7 denvPool
    "WETH" "07JUN24" true stOracle 1 (by rfl) ev hev)

/-! ## Claim C10: oracle failure breaks out of the whole batch -/

/-- C10: if the instrument at state index `i` of the batch has an oracle
failure flag set, the deposit pass records no event for any batch position
at or after it: every event concerns a strictly smaller state index (batch
iteration order is increasing state order). -/
theorem processStrikes_oracle_failure_skips_tail
    (minD maxD maxE : ℚ) (dte : ℤ) (env : ℕ → DepositEnvData)
    (market maturity : String) (isCall : Bool) (st : BotState) (i : ℕ)
    (hflag : oracleFlaggedAt st.optionParams i = true)
    (hmem : i ∈ batchIndices st market maturity isCall) :
    ∀ ev ∈ (processStrikes minD maxD maxE dte env market maturity isCall st).1,
      ev.idx < i := by
  intro ev hev
  unfold processStrikes at hev
  by_cases h1 : dte ≤ 0
  · rw [if_pos h1] at hev
    simp at hev
  · rw [if_neg h1] at hev
    by_cases h2 : dte > 365
    · rw [if_pos h2] at hev
      simp at hev
    · rw [if_neg h2] at hev
      rcases depositLoop_events minD maxD maxE env _ st [] ev hev with h | h
      · simp at h
      · refine takeWhile_lt_of_sorted (batchIndices_sorted st market maturity isCall)
          hmem ?_ ev.idx h
        show (!oracleFlaggedAt st.optionParams i) = false
        rw [hflag]
        rfl

/-- Witness for C10: with the flagged instrument at state index 1, every
deposit event of the batch has index strictly below 1. -/
theorem processStrikes_oracle_failure_skips_tail_witness :
    ((processStrikes 0 3 5 7 denvPool "WETH" "07JUN24" true stOracle).1.all
      fun ev => decide (ev.idx < 1)) = true := by
  rw [List.all_eq_true]
  intro ev hev
  exact decide_eq_true (processStrikes_oracle_failure_skips_tail 0 3 5 7 denvPool
    "WETH" "07JUN24" true stOracle 1 (by rfl) (by decide) ev hev)

/-! ## Claim C2: the withdrawFailure gate -/

/-- C2 (amended): if the due withdraw of a tracked position fails, the
completed withdraw pass leaves the matching option record with
withdrawFailure set; the following deposit pass issues no deposit for that
instrument (its event, if any, is gated to none); and when the pass
completes and did reach the instrument's iteration, the flag is cleared in
the final state.  (When the iteration is skipped — oracle break, unset
cycleOrders, delta out of range or pool unavailable — the flag persists
into later cycles; see the counterexample.) -/
theorem withdrawFailure_sets_gates_and_clears
    (st : BotState) (market maturity : String) (isCall : Bool)
    (wenv : WithdrawEnv) (denv : ℕ → DepositEnvData)
    (minD maxD maxE : ℚ) (dte : ℤ)
    (p : Position) (i : ℕ) (st1 : BotState)
    (hp : p ∈ st.lpRangeOrders) (hpm : p.market = market)
    (hidx : st.optionParams.findIdx? (fun o => optionMatchesPosition o p) = some i)
    (hcond : ∃ o, st.optionParams.get? i = some o ∧
      (o.ivOracleFailure || o.spotOracleFailure || o.cycleOrders) = true)
    (hbal : wenv.lpTokenBalance p ≠ 0)
    (hfail : wenv.withdrawOk p = false)
    (hok : withdrawSettleLiquidity st market wenv = .ok st1)
    (huniq : ∀ m, keyAt st1.optionParams m = keyAt st1.optionParams i → m = i) :
    (∃ o2, st1.optionParams.get? i = some o2 ∧ o2.withdrawFailure = true) ∧
    (∀ ev ∈ (processStrikes minD maxD maxE dte denv market maturity isCall st1).1,
      ev.idx = i → ev.deposits = none) ∧
    (∀ st2, (processStrikes minD maxD maxE dte denv market maturity isCall st1).2 = .ok st2 →
      (∃ ev ∈ (processStrikes minD maxD maxE dte denv market maturity isCall st1).1,
        ev.idx = i) →
      ∃ o3, st2.optionParams.get? i = some o3 ∧ o3.withdrawFailure = false) := by
  have hflag := withdrawSettleLiquidity_sets_flag hp hpm hidx hcond hbal hfail hok
  refine ⟨hflag, ?_, ?_⟩
  · intro ev hev hevi
    unfold processStrikes at hev
    by_cases h1 : dte ≤ 0
    · rw [if_pos h1] at hev
      simp at hev
    · rw [if_neg h1] at hev
      by_cases h2 : dte > 365
      · rw [if_pos h2] at hev
        simp at hev
      · rw [if_neg h2] at hev
        exact (depositLoop_gate minD maxD maxE denv i _ st1 []
          (batchIndices_nodup st1 market maturity isCall) huniq hflag).1 ev hev
          (by simp) hevi
  · intro st2 h2 hex
    obtain ⟨ev, hev, hevi⟩ := hex
    unfold processStrikes at h2 hev
    by_cases hd1 : dte ≤ 0
    · rw [if_pos hd1] at hev
      simp at hev
    · rw [if_neg hd1] at h2 hev
      by_cases hd2 : dte > 365
      · rw [if_pos hd2] at hev
        simp at hev
      · rw [if_neg hd2] at h2 hev
        exact (depositLoop_gate minD maxD maxE denv i _ st1 []
          (batchIndices_nodup st1 market maturity isCall) huniq hflag).2 st2 h2
          ⟨ev, hev, by simp, hevi⟩

/-- C2 counterexample: a failed withdraw sets the flag, but when the same
cycle's deposit-pass iteration is skipped (here: the pool fetch fails),
the flag is not cleared at the end of the cycle, and it still blocks the
deposit of the NEXT cycle: the later pass records the instrument's event
gated to no deposits.  So the flag does not block only the failing cycle. -/
theorem withdrawFailure_persists_counterexample :
    withdrawSettleLiquidity stC2 "WETH" wenvFail = .ok stC2AfterW ∧
    processStrikes 0 3 5 7 denvNoPool "WETH" "07JUN24" true stC2AfterW =
      ([], .ok stC2AfterW) ∧
    (setWF opHealthy).withdrawFailure = true ∧
    (processStrikes 0 3 5 7 denvPool "WETH" "07JUN24" true stC2AfterW).1 =
      [{ idx := 0, deposits := none }] := by
  refine ⟨?_, ?_, rfl, ?_⟩ <;> rfl

/-- Witness for the amended C2 over the concrete failing scenario, with
the next pass completing: the flag is set after the withdraw pass, the
instrument's deposit is gated off, and a completed iteration clears the
flag. -/
theorem withdrawFailure_sets_gates_and_clears_witness :
    (∃ o2, stC2AfterW.optionParams.get? 0 = some o2 ∧ o2.withdrawFailure = true) ∧
    (∀ ev ∈ (processStrikes 0 3 5 7 denvPool "WETH" "07JUN24" true stC2AfterW).1,
      ev.idx = 0 → ev.deposits = none) ∧
    (∀ st2,
      (processStrikes 0 3 5 7 denvPool "WETH" "07JUN24" true stC2AfterW).2 = .ok st2 →
      (∃ ev ∈ (processStrikes 0 3 5 7 denvPool "WETH" "07JUN24" true stC2AfterW).1,
        ev.idx = 0) →
      ∃ o3, st2.optionParams.get? 0 = some o3 ∧ o3.withdrawFailure = false) :=
  withdrawFailure_sets_gates_and_clears stC2 "WETH" "07JUN24" true wenvFail denvPool
    0 3 5 7 posTracked 0 stC2AfterW
    (show posTracked ∈ [posTracked] from List.mem_singleton.mpr rfl)
    rfl (by rfl) ⟨opHealthy, rfl, rfl⟩ (by decide) rfl (by rfl)
    (by
      intro m hm
      cases m with
      | zero => rfl
      | succ n =>
        have hn : keyAt stC2AfterW.optionParams (n + 1) = none := by
          simp [keyAt, stC2AfterW]
        rw [hn] at hm
        simp [keyAt, stC2AfterW] at hm)

/-- C7: every retry wrapper, started with a fresh attempt counter and
`retry = true`, makes at most two attempts; on first failure it attempts
exactly once more, on second failure it surfaces the error, and an
attempt is a failure exactly when it threw or confirmed with status 0
(so a confirmed-but-reverted transaction is never a success). -/
theorem retry_wrappers_attempt_at_most_twice
    (outcomes : ℕ → TxOutcome) (now exp : ℕ) :
    depositPosition outcomes 0 true =
      (if txFails (outcomes 0) then
        if txFails (outcomes 1) then (2, .error "Error depositing LP Range Order")
        else (2, .ok ())
       else (1, .ok ())) ∧
    withdrawPosition outcomes now exp 0 true =
      (if txFails (outcomes 0) then
        if txFails (outcomes 1) then
          (2, .error (if exp < now then "Error settling LP Range Order"
                      else "Error withdrawing LP Range Order"))
        else (2, .ok ())
       else (1, .ok ())) ∧
    deployPool outcomes 0 true =
      (if txFails (outcomes 0) then
        if txFails (outcomes 1) then (2, .error "Error deploying pool")
        else (2, .ok ())
       else (1, .ok ())) ∧
    annihilatePositions outcomes 0 true =
      (if txFails (outcomes 0) then
        if txFails (outcomes 1) then (2, .error "Error annihilating positions")
        else (2, .ok ())
       else (1, .ok ())) ∧
    txFails .thrown = true ∧
    (∀ s, txFails (.confirmed s) = decide (s = 0)) := by
  refine ⟨?_, ?_, ?_, ?_, rfl, fun s => rfl⟩
  · by_cases h0 : txFails (outcomes 0) <;> by_cases h1 : txFails (outcomes 1) <;>
      simp [depositPosition, h0, h1]
  · by_cases h0 : txFails (outcomes 0) <;> by_cases h1 : txFails (outcomes 1) <;>
      by_cases hexp : exp < now <;> simp [withdrawPosition, h0, h1, hexp]
  · by_cases h0 : txFails (outcomes 0) <;> by_cases h1 : txFails (outcomes 1) <;>
      simp [deployPool, h0, h1]
  · by_cases h0 : txFails (outcomes 0) <;> by_cases h1 : txFails (outcomes 1) <;>
      simp [annihilatePositions, h0, h1]

/-- C8 is a code bug: with minDelta 0.2 and maxDelta 0.6, a strike that
prices successfully to delta 0.9 — strictly outside the band, so the
spec says it is dropped — is kept anyway, because the filter tests the
truthiness of the async callback's Promise, not the boolean it resolves
to; in fact the filter keeps every strike unconditionally. -/
theorem filterSurroundingStrikes_keeps_all :
    filterSurroundingStrikes (2/10) (6/10) (fun _ => some (9/10)) true [2000] = [2000] ∧
    deltaKeep (2/10) (6/10) true (some (9/10)) = false ∧
    (∀ minD maxD delta isCall strikes,
      filterSurroundingStrikes minD maxD delta isCall strikes = strikes) := by
  refine ⟨rfl, by norm_num [deltaKeep], fun minD maxD delta isCall strikes => ?_⟩
  simp [filterSurroundingStrikes, promiseTruthy]

/-- C9 counterexample: the duplicate check is keyed by pool address plus
option type (call/put), not pool address plus side.  A single tracked
LEFT leg (long-collateral order type) makes the pool fetch return null,
skipping the whole instrument — including the RIGHT leg, which has no
tracked position — whereas with no tracked legs the fetch succeeds.  So
the code does not permit one tracked leg per (instrument, side). -/
theorem fetchOrDeployPool_left_blocks_instrument :
    posLeftLegC9.posKey.orderType = OrderType.LONG_COLLATERAL ∧
    fetchOrDeployPool [posLeftLegC9] "0xPool" true true false 1 300 true = false ∧
    fetchOrDeployPool [] "0xPool" true true false 1 300 true = true := by
  refine ⟨rfl, rfl, ?_⟩
  norm_num [fetchOrDeployPool, List.find?]

/-- C9 amended: with the pool deployed, auto-deploy off and the DTE guard
passing, v1 `fetchOrDeployPool` skips the instrument exactly when some
tracked position matches on pool address and option type — the side of
that tracked leg plays no role. -/
theorem fetchOrDeployPool_amended
    (lpRangeOrders : List Position) (poolAddress : String) (isCall : Bool)
    (ttm minDTE : ℚ) (hdte : ¬ ttm * 365 < minDTE) :
    fetchOrDeployPool lpRangeOrders poolAddress isCall true false ttm minDTE true
        = false ↔
      ∃ p ∈ lpRangeOrders, p.poolAddress = poolAddress ∧ p.isCall = isCall := by
  rw [fetchOrDeployPool]
  by_cases hfind : (List.find? (fun position =>
      decide (position.poolAddress = poolAddress) && (position.isCall == isCall))
      lpRangeOrders).isSome
  · rw [if_pos hfind]
    simp only [List.find?_isSome, Bool.and_eq_true, decide_eq_true_eq,
      beq_iff_eq] at hfind
    simpa using hfind
  · rw [if_neg hfind]
    simp only [List.find?_isSome, Bool.and_eq_true, decide_eq_true_eq,
      beq_iff_eq] at hfind
    simpa [hdte] using hfind

/-- Witness for the amended C9 at the concrete one-left-leg state. -/
theorem fetchOrDeployPool_amended_witness :
    fetchOrDeployPool [posLeftLegC9] "0xPool" true true false 1 300 true = false ↔
      ∃ p ∈ [posLeftLegC9], p.poolAddress = "0xPool" ∧ p.isCall = true :=
  fetchOrDeployPool_amended [posLeftLegC9] "0xPool" true 1 300 (by norm_num)

end RangeOrderBot

